import Mathlib

/-!
Shallow embedding of the einsum-derive / einsum-codegen compiler core
(subscript parser, subscripts algebra, path planner, naive code emitter),
translated from the Rust sources:
  einsum-codegen/src/parser.rs
  einsum-codegen/src/subscripts.rs  (Namespace and Position from einsum-solver/src/namespace.rs)
  einsum-codegen/src/path.rs
  einsum-codegen/src/codegen/ndarray/naive.rs
  einsum-derive/src/lib.rs

Machine integers of the source (usize, u32) are modelled as Nat; mutable
state (the Namespace counter, the index-remapping BTreeMap) is modelled by
explicit state passing; Rust's Result values whose error branch is used are
modelled as Option/Except.
-/

/-! ## Small list utilities used to model Rust iterator / BTreeMap behaviour -/

/-- Number of occurrences of a character in a list (models the per-key counter
accumulated in a Rust BTreeMap via `entry(c).and_modify(|n| *n += 1).or_insert(1)`). -/
def countc (c : Char) : List Char → Nat
  | [] => 0
  | x :: xs => (if x = c then 1 else 0) + countc c xs

/-- Concatenation of the images of a list under a list-valued function
(models Rust's nested `for` loops over inputs and their indices). -/
def concatMap (f : α → List β) : List α → List β
  | [] => []
  | x :: xs => f x ++ concatMap f xs

/-- Insert a character into a strictly sorted list, keeping it sorted and
duplicate-free (models insertion of a key into a Rust BTreeMap/BTreeSet). -/
def insertSortedChar (c : Char) : List Char → List Char
  | [] => [c]
  | x :: xs => if c < x then c :: x :: xs else if c = x then x :: xs else x :: insertSortedChar c xs

/-- The sorted duplicate-free list of characters occurring in `cs`: the key set
of a Rust BTreeMap/BTreeSet populated from `cs`, in iteration (ascending) order. -/
def sortedKeys (cs : List Char) : List Char := cs.foldr insertSortedChar []

/-- First position of `c` in a list (length of the list if absent). -/
def idxOf (c : Char) : List Char → Nat
  | [] => 0
  | x :: xs => if x = c then 0 else idxOf c xs + 1

/-- Append the characters of `l` that are not yet present to `seen`, in order of
first appearance. -/
def firstOccsFrom (seen : List Char) : List Char → List Char
  | [] => seen
  | c :: cs => if c ∈ seen then firstOccsFrom seen cs else firstOccsFrom (seen ++ [c]) cs

/-- The distinct characters of `l` in order of first appearance. -/
def firstOccs (l : List Char) : List Char := firstOccsFrom [] l

/-- Lookup in an association list of characters (models BTreeMap get). -/
def lookupChar : List (Char × Char) → Char → Option Char
  | [], _ => none
  | (k, v) :: rest, c => if c = k then some v else lookupChar rest c

/-! ## Positions and the Namespace counter (einsum-solver/src/namespace.rs) -/

/-- Which tensor a subscript refers to: the n-th user argument or the n-th
intermediate produced by the compiler. -/
inductive Position where
  | Arg (n : Nat)
  | Out (n : Nat)
deriving DecidableEq

/-- Counter issuing fresh `Out n` identifiers. -/
structure Namespace where
  last : Nat
deriving DecidableEq

def Namespace.init : Namespace := ⟨0⟩

/-- Issue a new identifier; the mutable `&mut self` of the source is modelled by
returning the advanced counter. -/
def Namespace.new_ident (ns : Namespace) : Position × Namespace :=
  (Position.Out ns.last, ⟨ns.last + 1⟩)

/-! ## Raw subscripts (einsum-codegen/src/parser.rs data types) -/

/-- One raw subscript: either a plain index list (`ijk`) or an ellipsis form
(`i...j`) with its indices before and after the ellipsis. -/
inductive RawSubscript where
  | Indices (indices : List Char)
  | Ellipsis (start : List Char) (end' : List Char)
deriving DecidableEq

/-- Whole raw einsum subscripts: a non-empty input list and an optional
(explicit-mode) output. -/
structure RawSubscripts where
  inputs : List RawSubscript
  output : Option RawSubscript
deriving DecidableEq

/-! ## Subscript / Subscripts (einsum-codegen/src/subscripts.rs) -/

/-- A raw subscript tagged with the tensor it labels. -/
structure Subscript where
  raw : RawSubscript
  position : Position
deriving DecidableEq

/-- Sequence of single-index characters of a subscript; for the ellipsis form
this is `start ++ end`. -/
def Subscript.indices (s : Subscript) : List Char :=
  match s.raw with
  | .Indices indices => indices
  | .Ellipsis start end' => start ++ end'

/-- Einsum subscripts with tensor names, e.g. `ab,bc->ac | arg0,arg1->out0`. -/
structure Subscripts where
  inputs : List Subscript
  output : Subscript
deriving DecidableEq

/-- Per-character occurrence counts over a list of input subscripts, in
ascending key order (the `count_indices` BTreeMap of the source). -/
def count_indices (inputs : List Subscript) : List (Char × Nat) :=
  (sortedKeys (concatMap Subscript.indices inputs)).map
    (fun c => (c, countc c (concatMap Subscript.indices inputs)))

/-! ### Canonical index remapping (`Subscripts::remap_indices`) -/

/-- One step of the remapping: look the character up in the accumulated map; if
absent, bind it to the next character `'a' + map.len()` (the source does
`char::from_u32('a' as u32 + map.len()).unwrap()`; the `unwrap` cannot fail
while fewer than 0xD800 - 97 distinct indices occur). -/
def remapChar (m : List (Char × Char)) (c : Char) : List (Char × Char) × Char :=
  match lookupChar m c with
  | some d => (m, d)
  | none =>
    let d := Char.ofNat (97 + m.length)
    (m ++ [(c, d)], d)

/-- Remap a character list left to right, threading the map. -/
def remapChars (m : List (Char × Char)) : List Char → List (Char × Char) × List Char
  | [] => (m, [])
  | c :: cs =>
    let md := remapChar m c
    let rest := remapChars md.1 cs
    (rest.1, md.2 :: rest.2)

/-- Remap one raw subscript (ellipsis form: start then end, as in the source). -/
def remapRaw (m : List (Char × Char)) : RawSubscript → List (Char × Char) × RawSubscript
  | .Indices is' =>
    let r := remapChars m is'
    (r.1, .Indices r.2)
  | .Ellipsis start end' =>
    let r1 := remapChars m start
    let r2 := remapChars r1.1 end'
    (r2.1, .Ellipsis r1.2 r2.2)

/-- Remap the input subscripts in order, threading the map. -/
def remapInputs (m : List (Char × Char)) : List Subscript → List (Char × Char) × List Subscript
  | [] => (m, [])
  | i :: is' =>
    let r := remapRaw m i.raw
    let rest := remapInputs r.1 is'
    (rest.1, ⟨r.2, i.position⟩ :: rest.2)

/-- Canonical remapping: traverse inputs then output, renaming the first
distinct index to `a`, the next to `b`, and so on. -/
def Subscripts.remap_indices (s : Subscripts) : Subscripts :=
  let mi := remapInputs [] s.inputs
  ⟨mi.2, ⟨(remapRaw mi.1 s.output.raw).2, s.output.position⟩⟩

/-! ### Construction from raw subscripts (`Subscripts::from_raw`) -/

/-- Tag the raw inputs with argument positions `Arg 0, Arg 1, ...`
(the `enumerate` loop of `from_raw`). -/
def argInputs' : Nat → List RawSubscript → List Subscript
  | _, [] => []
  | i, r :: rs => ⟨r, .Arg i⟩ :: argInputs' (i + 1) rs

def argInputs (raw : RawSubscripts) : List Subscript := argInputs' 0 raw.inputs

/-- Output synthesized in implicit mode: the characters occurring exactly once
across the inputs, in BTreeMap (ascending, i.e. alphabetical) key order. -/
def implicitOutput (inputs : List Subscript) : List Char :=
  (count_indices inputs).filterMap (fun kv => if kv.2 = 1 then some kv.1 else none)

/-- The subscripts built by `from_raw` just before the final `remap_indices`
call, together with the advanced namespace. -/
def from_raw_pre (names : Namespace) (raw : RawSubscripts) : Subscripts × Namespace :=
  let inputs := argInputs raw
  let pn := names.new_ident
  match raw.output with
  | some output => (⟨inputs, ⟨output, pn.1⟩⟩, pn.2)
  | none => (⟨inputs, ⟨.Indices (implicitOutput inputs), pn.1⟩⟩, pn.2)

/-- Normalize raw subscripts into explicit mode and canonically remap. -/
def Subscripts.from_raw (names : Namespace) (raw : RawSubscripts) : Subscripts × Namespace :=
  let c := from_raw_pre names raw
  (c.1.remap_indices, c.2)

/-! ### Contraction indices and cost orders -/

/-- Indices to be contracted: those occurring more than once across inputs,
minus those present in the output (a BTreeSet, hence ascending and
duplicate-free). -/
def Subscripts.contraction_indices (s : Subscripts) : List Char :=
  ((count_indices s.inputs).filterMap (fun kv => if 1 < kv.2 then some kv.1 else none)).filter
    (fun c => ¬ c ∈ s.output.indices)

/-- Memory order: the number of output indices. -/
def Subscripts.memory_order (s : Subscripts) : Nat := s.output.indices.length

/-- Compute order: memory order plus the number of contraction indices. -/
def Subscripts.compute_order (s : Subscripts) : Nat :=
  s.memory_order + s.contraction_indices.length

/-! ### Factorization (`Subscripts::factorize`) -/

/-- The output (before canonical remapping) of the inner step of a
factorization: all characters of the inputs, in BTreeMap order, kept iff they
occur exactly once in the inner partition, or at least twice in the inner
partition and at least once in the outer partition. -/
def factorizeOut (s : Subscripts) (inners : List Position) : List Char :=
  let innerChars := concatMap Subscript.indices (s.inputs.filter (fun i => i.position ∈ inners))
  let outerChars := concatMap Subscript.indices (s.inputs.filter (fun i => ¬ i.position ∈ inners))
  (sortedKeys (innerChars ++ outerChars)).filter (fun c =>
    countc c innerChars = 1 ∨ (2 ≤ countc c innerChars ∧ 0 < countc c outerChars))

/-- Factorize subscripts into the step contracting the inputs at the given
positions and the remaining step consuming its output.  The source returns
`Result` but never errs; the namespace is threaded explicitly. -/
def Subscripts.factorize (s : Subscripts) (names : Namespace) (inners : List Position) :
    (Subscripts × Subscripts) × Namespace :=
  let inner_inputs := s.inputs.filter (fun i => i.position ∈ inners)
  let outer_inputs := s.inputs.filter (fun i => ¬ i.position ∈ inners)
  let pn := names.new_ident
  let out : Subscript := ⟨.Indices (factorizeOut s inners), pn.1⟩
  let inner : Subscripts := ⟨inner_inputs, out⟩
  let outer : Subscripts := ⟨out :: outer_inputs, s.output⟩
  ((inner.remap_indices, outer.remap_indices), pn.2)

/-! ## The nom parser (einsum-codegen/src/parser.rs)

Parsers work on `List Char` and return the unconsumed rest.  With the
combinators used by the source (`many0`, `opt`, `separated_list1` whose
separator always consumes the comma, `multispace0`), the whole `subscripts`
parser is total: every failing sub-parser is wrapped in `opt`/`many0`
backtracking, and nom's infinite-loop guards can never fire because `index`
consumes one character and the separator consumes the comma.  The parsers are
therefore modelled as total functions. -/

/-- Character class of nom's `multispace0`. -/
def isWsChar (c : Char) : Bool := c = ' ' ∨ c = '\t' ∨ c = '\n' ∨ c = '\r'

/-- Character class of `index` (`satisfy(|c| c.is_ascii_lowercase())`). -/
def isIdxChar (c : Char) : Bool := 'a' ≤ c ∧ c ≤ 'z'

/-- Drop leading whitespace (`multispace0`). -/
def skipWs : List Char → List Char
  | [] => []
  | c :: cs => if isWsChar c then skipWs cs else c :: cs

/-- Parse `many0(tuple((multispace0, index)))`: the collected index characters
and the rest.  An iteration consumes a whitespace run and then one index
character; when no index follows, the iteration's whitespace is not consumed
(nom backtracks the whole tuple), which the `r.1 = []` test reproduces:
whitespace is only kept consumed if at least one further index was found. -/
def pIndices : List Char → List Char × List Char
  | [] => ([], [])
  | c :: cs =>
    if isWsChar c then
      let r := pIndices cs
      if r.1 = [] then ([], c :: cs) else r
    else if isIdxChar c then
      let r := pIndices cs
      (c :: r.1, r.2)
    else ([], c :: cs)

/-- Parse one `subscript`: indices, then optionally `multispace0 "..."
multispace0 indices` (the ellipsis branch); `opt` backtracks on failure. -/
def pSubscript (s : List Char) : RawSubscript × List Char :=
  let (start, s1) := pIndices s
  match skipWs s1 with
  | '.' :: '.' :: '.' :: s3 =>
    let (end', s4) := pIndices (skipWs s3)
    (.Ellipsis start end', s4)
  | _ => (.Indices start, s1)

/-- Loop of `separated_list1(tuple((multispace0, char(','))), subscript)`:
repeatedly consume a comma-separator and one more subscript; stop (without
consuming) when no comma follows. -/
def pSubscriptsRest (acc : List RawSubscript) (s : List Char) : List RawSubscript × List Char :=
  match h : skipWs s with
  | ',' :: s2 =>
    let r := pSubscript s2
    pSubscriptsRest (acc ++ [r.1]) r.2
  | _ => (acc, s)
termination_by s.length
decreasing_by
  have hle : ∀ l : List Char, (skipWs l).length ≤ l.length := by
    intro l
    induction l with
    | nil => simp [skipWs]
    | cons x xs ih =>
      simp only [skipWs]
      split
      · exact le_trans ih (by simp)
      · simp
  have hidx : ∀ l : List Char, (pIndices l).2.length ≤ l.length := by
    intro l
    induction l with
    | nil => simp [pIndices]
    | cons c cs ih =>
      simp only [pIndices]
      by_cases hw : isWsChar c
      · rw [if_pos hw]
        split
        · simp
        · simp only [List.length_cons]
          omega
      · rw [if_neg hw]
        by_cases hi : isIdxChar c
        · rw [if_pos hi]
          simp only [List.length_cons]
          omega
        · rw [if_neg hi]
  have hsub : ∀ l : List Char, (pSubscript l).2.length ≤ l.length := by
    intro l
    have h1 := hidx l
    simp only [pSubscript]
    rcases hp : pIndices l with ⟨start, s1⟩
    rw [hp] at h1
    simp only
    split
    next s3 heq =>
      have h3 := hle s3
      have h4 := hidx (skipWs s3)
      have h2 := hle s1
      rw [heq] at h2
      simp at h1 h2 ⊢
      omega
    next =>
      simp at h1 ⊢
      omega
  have h1 := hle s
  rw [h] at h1
  have h2 := hsub s2
  simp at h1
  omega

/-- The whole `subscripts` parser: leading whitespace, a comma-separated
non-empty list of subscripts, then optionally `multispace0 "->" multispace0
subscript`. -/
def pSubscripts (s : List Char) : RawSubscripts × List Char :=
  let s0 := skipWs s
  let (first, s1) := pSubscript s0
  let (inputs, s2) := pSubscriptsRest [first] s1
  match skipWs s2 with
  | '-' :: '>' :: s4 =>
    let (out, s5) := pSubscript (skipWs s4)
    (⟨inputs, some out⟩, s5)
  | _ => (⟨inputs, none⟩, s2)

/-- The `FromStr` impl: run `subscripts` and keep the parsed value, discarding
the unconsumed rest (`if let Ok((_, ss)) = subscripts(input).finish()`); the
`InvalidSubscripts` bail is modelled by `none` and is unreachable because the
parser is total. -/
def RawSubscripts.fromStr (s : String) : Option RawSubscripts :=
  some (pSubscripts s.data).1

/-- The `Subscripts::from_raw_indices` constructor. -/
def Subscripts.from_raw_indices (names : Namespace) (indices : String) :
    Option (Subscripts × Namespace) :=
  (RawSubscripts.fromStr indices).map (Subscripts.from_raw names)

/-! ## The path planner (einsum-codegen/src/path.rs) -/

/-- Insert a position into a BTreeSet modelled as a duplicate-free list (only
membership and cardinality of the set are ever observed). -/
def insertPos (acc : List Position) (p : Position) : List Position :=
  if p ∈ acc then acc else acc ++ [p]

/-- The `for i in 0..n { if m % 2 == 1 { pos.insert(...) }; m /= 2 }` loop
collecting the positions of the inputs selected by the bit mask `m`. -/
def maskPositionsAux (acc : List Position) : Nat → List Subscript → List Position
  | _, [] => acc
  | m, i :: is' =>
    maskPositionsAux (if m % 2 = 1 then insertPos acc i.position else acc) (m / 2) is'

def maskPositions (inputs : List Subscript) (m : Nat) : List Position :=
  maskPositionsAux [] m inputs

/-- All candidate inner subsets: masks in `[0, 2^n)` whose selected position
set has at least two and fewer than `n` elements. -/
def maskCands (inputs : List Subscript) : List (List Position) :=
  (List.range (2 ^ inputs.length)).filterMap (fun m =>
    let pos := maskPositions inputs m
    if 2 ≤ pos.length ∧ pos.length < inputs.length then some pos else none)

/-- Maximum of a list of naturals (Rust `Iterator::max`, whose `expect` is only
ever applied to non-empty step lists). -/
def listMaxN : List Nat → Nat
  | [] => 0
  | x :: xs => max x (listMaxN xs)

/-- Compute order of a path of steps: max over the steps. -/
def pathComputeOrder (ss : List Subscripts) : Nat := listMaxN (ss.map Subscripts.compute_order)

/-- Memory order of a path of steps: max over the steps. -/
def pathMemoryOrder (ss : List Subscripts) : Nat := listMaxN (ss.map Subscripts.memory_order)

/-- The minimization key `(compute_order(path), memory_order(path))`. -/
def pathKey (ss : List Subscripts) : Nat × Nat := (pathComputeOrder ss, pathMemoryOrder ss)

/-- Strict lexicographic comparison on keys (Rust's derived `Ord` on pairs). -/
def keyLt (a b : Nat × Nat) : Prop := a.1 < b.1 ∨ (a.1 = b.1 ∧ a.2 < b.2)

instance (a b : Nat × Nat) : Decidable (keyLt a b) := by unfold keyLt; infer_instance

/-- Non-strict lexicographic comparison on keys. -/
def keyLe (a b : Nat × Nat) : Prop := a.1 < b.1 ∨ (a.1 = b.1 ∧ a.2 ≤ b.2)

instance (a b : Nat × Nat) : Decidable (keyLe a b) := by unfold keyLe; infer_instance

/-- Rust's `Iterator::min_by_key`: the first element whose key is minimal, or
`None` on an empty iterator. -/
def minByKey (key : α → Nat × Nat) : List α → Option α
  | [] => none
  | x :: xs => some (xs.foldl (fun best y => if keyLt (key y) (key best) then y else best) x)

/-- The recursive brute-force planner `brute_force_work`: with at most two
inputs the subscripts cannot be factorized further; otherwise factorize along
every candidate subset, recurse on the remainder, add the unfactorized
identity plan, and take the plan with minimal key.  The `expect` on the
minimum is modelled by the unreachable `none => []` branch. -/
def brute_force_work (names : Namespace) (s : Subscripts) : List Subscripts :=
  if s.inputs.length ≤ 2 then [s]
  else
    let subpaths := (maskCands s.inputs).attach.map (fun pp =>
      let r := s.factorize names pp.1
      r.1.1 :: brute_force_work r.2 r.1.2)
    match minByKey pathKey (subpaths ++ [[s]]) with
    | some best => best
    | none => []
termination_by s.inputs.length
decreasing_by
  have hremapInputs : ∀ (l : List Subscript) (m : List (Char × Char)),
      (remapInputs m l).2.length = l.length := by
    intro l
    induction l with
    | nil => intro m; simp [remapInputs]
    | cons i is' ih => intro m; simp [remapInputs, ih]
  have hremap : ∀ t : Subscripts, (Subscripts.remap_indices t).inputs.length = t.inputs.length := by
    intro t
    simp [Subscripts.remap_indices, hremapInputs]
  have hmaskaux : ∀ (inputs : List Subscript) (m : Nat) (acc : List Position),
      acc.Nodup → (maskPositionsAux acc m inputs).Nodup ∧
        ∀ p ∈ maskPositionsAux acc m inputs, p ∈ acc ∨ ∃ i ∈ inputs, i.position = p := by
    intro inputs
    induction inputs with
    | nil =>
      intro m acc hacc
      exact ⟨hacc, fun p hp => Or.inl hp⟩
    | cons i is' ih =>
      intro m acc hacc
      simp only [maskPositionsAux]
      have hacc2 : (if m % 2 = 1 then insertPos acc i.position else acc).Nodup := by
        split
        · unfold insertPos
          split
          · exact hacc
          · next hni =>
            simpa [List.nodup_append] using ⟨hacc, fun h => hni h⟩
        · exact hacc
      obtain ⟨h1, h2⟩ := ih (m / 2) _ hacc2
      refine ⟨h1, fun p hp => ?_⟩
      rcases h2 p hp with hmem | ⟨j, hj, hjp⟩
      · by_cases hm : m % 2 = 1
        · rw [if_pos hm] at hmem
          unfold insertPos at hmem
          split at hmem
          · exact Or.inl hmem
          · rcases List.mem_append.mp hmem with h | h
            · exact Or.inl h
            · simp at h
              exact Or.inr ⟨i, by simp, h.symm⟩
        · rw [if_neg hm] at hmem
          exact Or.inl hmem
      · exact Or.inr ⟨j, by simp [hj], hjp⟩
  have hpartition : ∀ (l : List Subscript) (pos : List Position),
      (l.filter (fun i => i.position ∈ pos)).length
        + (l.filter (fun i => ¬ i.position ∈ pos)).length = l.length := by
    intro l pos
    induction l with
    | nil => simp
    | cons i is' ih =>
      simp only [List.filter_cons, decide_not] at ih ⊢
      by_cases hi : i.position ∈ pos
      · simp [hi]
        omega
      · simp [hi]
        omega
  have hcount : ∀ (pos : List Position) (inputs : List Subscript), pos.Nodup →
      (∀ p ∈ pos, ∃ i ∈ inputs, i.position = p) →
      pos.length ≤ (inputs.filter (fun i => i.position ∈ pos)).length := by
    intro pos inputs hnd hmem
    have hsub : pos ⊆ (inputs.filter (fun i => i.position ∈ pos)).map Subscript.position := by
      intro p hp
      obtain ⟨i, hi, hip⟩ := hmem p hp
      refine List.mem_map.mpr ⟨i, ?_, hip⟩
      refine List.mem_filter.mpr ⟨hi, ?_⟩
      simp [hip, hp]
    calc pos.length ≤ ((inputs.filter (fun i => i.position ∈ pos)).map Subscript.position).length :=
          (List.Nodup.subperm hnd hsub).length_le
    _ = (inputs.filter (fun i => i.position ∈ pos)).length := by simp
  obtain ⟨pos, hposmem⟩ := pp
  simp only []
  obtain ⟨m, hmrange, hmeq⟩ := List.mem_filterMap.mp hposmem
  have hcond : 2 ≤ (maskPositions s.inputs m).length ∧
      (maskPositions s.inputs m).length < s.inputs.length := by
    by_contra hc
    rw [if_neg hc] at hmeq
    exact Option.noConfusion hmeq
  rw [if_pos hcond] at hmeq
  have hposeq : pos = maskPositions s.inputs m := (Option.some.inj hmeq).symm
  have hnd : pos.Nodup := by
    rw [hposeq]
    exact (hmaskaux s.inputs m [] List.nodup_nil).1
  have hmem2 : ∀ p ∈ pos, ∃ i ∈ s.inputs, i.position = p := by
    intro p hp
    rw [hposeq] at hp
    rcases (hmaskaux s.inputs m [] List.nodup_nil).2 p hp with h | h
    · simp at h
    · exact h
  have hlen2 : 2 ≤ pos.length := by rw [hposeq]; exact hcond.1
  have hinner := hcount pos s.inputs hnd hmem2
  have hpart := hpartition s.inputs pos
  simp only [Subscripts.factorize, hremap]
  simp only [List.length_cons]
  simp only [decide_not] at hpart ⊢
  omega

/-- The candidate plans over which `brute_force_work` minimizes at the top
level: one plan per admissible inner subset (the factorized first step
followed by the recursively planned remainder) plus the unfactorized identity
plan `[s]`; with at most two inputs no factorization is attempted and the
identity plan is the only candidate. -/
def bfwCandidates (names : Namespace) (s : Subscripts) : List (List Subscripts) :=
  if s.inputs.length ≤ 2 then [[s]]
  else
    ((maskCands s.inputs).map (fun pos =>
      let r := s.factorize names pos
      r.1.1 :: brute_force_work r.2 r.1.2)) ++ [[s]]

/-- An execution path: the original subscripts and the planned steps. -/
structure Path' where
  original : Subscripts
  reduced_subscripts : List Subscripts
deriving DecidableEq

def Path'.output (p : Path') : Subscript := p.original.output

def Path'.num_args (p : Path') : Nat := p.original.inputs.length

def Path'.compute_order (p : Path') : Nat := pathComputeOrder p.reduced_subscripts

def Path'.memory_order (p : Path') : Nat := pathMemoryOrder p.reduced_subscripts

/-- The entry point `Path::brute_force`: parse with a fresh namespace, then
run the planner (the parse error would propagate as `none`). -/
def Path'.brute_force (indices : String) : Option Path' :=
  match Subscripts.from_raw_indices Namespace.init indices with
  | none => none
  | some sn => some ⟨sn.1, brute_force_work sn.2 sn.1⟩

/-! ## The naive code emitter (einsum-codegen/src/codegen/ndarray/naive.rs)

The emitter produces Rust token streams; the statements and expressions the
contraction emitter can produce are modelled by a small syntax tree.  An
`assign` node renders as `lhs[(indices)] = rhs;` and an `addAssign` node
would render as `lhs[(indices)] += rhs;`; the source's `contraction_inner`
only ever emits the former. -/

/-- Expressions appearing in the innermost statement: an element access
`pos[(i, j, ...)]` or a product. -/
inductive RExpr where
  | access (pos : Position) (index : List Char)
  | mul (a b : RExpr)
deriving DecidableEq

/-- Statements of the emitted contraction: nested `for` loops over
`0..n_index`, plain assignment, or compound `+=` assignment. -/
inductive RStmt where
  | forLoop (index : Char) (body : RStmt)
  | assign (pos : Position) (index : List Char) (rhs : Option RExpr)
  | addAssign (pos : Position) (index : List Char) (rhs : Option RExpr)
deriving DecidableEq

/-- The loop indices of a statement, outermost first. -/
def RStmt.loopIndices : RStmt → List Char
  | .forLoop i body => i :: body.loopIndices
  | _ => []

/-- The statement inside all the nested loops. -/
def RStmt.innermost : RStmt → RStmt
  | .forLoop _ body => body.innermost
  | s => s

/-- The `inner_mul` fold of `contraction_inner`: the product of the access
expressions in input order, left-associated, starting from `None`. -/
def mulChain (es : List RExpr) : Option RExpr :=
  es.foldl (fun acc e =>
    match acc with
    | some a => some (.mul a e)
    | none => some e) none

/-- The innermost statement emitted by `contraction_inner`: a plain `=`
assignment of the product of the inputs (each indexed by its own index
characters) to the output element indexed by the output's index characters. -/
def contraction_inner (s : Subscripts) : RStmt :=
  .assign s.output.position s.output.indices
    (mulChain (s.inputs.map (fun inp => .access inp.position inp.indices)))

/-- Wrap a statement in one `for` loop per index, first index outermost (the
source folds over `indices.iter().rev()`). -/
def contraction_for (indices : List Char) (inner : RStmt) : RStmt :=
  indices.foldr (fun i tt => .forLoop i tt) inner

/-- The contraction emitter: loops over the output indices (in output order)
then the contraction indices (BTreeSet, hence ascending), with the
`contraction_inner` assignment innermost. -/
def contraction (s : Subscripts) : RStmt :=
  contraction_for (s.output.indices ++ s.contraction_indices) (contraction_inner s)

/-! ## The macro entry point (einsum-derive/src/lib.rs)

`einsum2` parses the subscripts from the string literal and aborts with the
fixed diagnostic `"Argument number mismatch"` when the number of parsed input
subscripts differs from the number of argument expressions; the argument
expressions themselves are opaque here, only their count matters. -/

/-- The validation prefix of `einsum2`: parse and canonicalize the subscripts,
then compare the number of inputs with the number of macro arguments.  Returns
the diagnostic message of the aborting branch, or the subscripts on success. -/
def einsum2 (subscripts : String) (nArgs : Nat) : Except String Subscripts :=
  match RawSubscripts.fromStr subscripts with
  | none => .error "Invalid subscripts"
  | some raw =>
    let ss := (Subscripts.from_raw Namespace.init raw).1
    if ss.inputs.length ≠ nArgs then .error "Argument number mismatch"
    else .ok ss

/-! ## Auxiliary notions used only to state the claims -/

/-- The index characters of a raw subscript in traversal order
(start then end for the ellipsis form). -/
def RawSubscript.chars : RawSubscript → List Char
  | .Indices is' => is'
  | .Ellipsis start end' => start ++ end'

/-- All index characters of a Subscripts in remapping traversal order:
inputs in order, then the output. -/
def Subscripts.allChars (s : Subscripts) : List Char :=
  concatMap (fun i => i.raw.chars) s.inputs ++ s.output.raw.chars

/-- Apply a character map to every index of a raw subscript. -/
def mapRawChars (f : Char → Char) : RawSubscript → RawSubscript
  | .Indices is' => .Indices (is'.map f)
  | .Ellipsis start end' => .Ellipsis (start.map f) (end'.map f)

/-- Apply a character map to every index of a Subscripts, keeping positions. -/
def mapSubsChars (f : Char → Char) (s : Subscripts) : Subscripts :=
  ⟨s.inputs.map (fun i => ⟨mapRawChars f i.raw, i.position⟩),
    ⟨mapRawChars f s.output.raw, s.output.position⟩⟩

/-- Relabel the indices of raw subscripts by a character map. -/
def relabelRaw (f : Char → Char) (r : RawSubscripts) : RawSubscripts :=
  ⟨r.inputs.map (mapRawChars f), r.output.map (mapRawChars f)⟩

/-- The canonical rank function induced by a traversal: the position of the
character among the distinct characters in order of first appearance, shifted
into the alphabet. -/
def rankChar (full : List Char) (c : Char) : Char := Char.ofNat (97 + idxOf c full)

/-- Does a raw subscript use the ellipsis form? -/
def RawSubscript.hasEllipsis : RawSubscript → Bool
  | .Indices _ => false
  | .Ellipsis _ _ => true

/-! ## Whitespace-decorated subscripts

The spec's well-formed subscripts strings with optional whitespace "between
indices, around commas, or around the arrow" are modelled as a decorated
syntax tree: each index character, comma, and arrow carries the whitespace
run preceding it (and the ellipsis its surrounding runs).  `render` produces
the concrete string, `strip` the `RawSubscripts` value it denotes. -/

/-- A whitespace run. -/
abbrev Ws := List Char

/-- A raw subscript with a whitespace run before every index character and
around the ellipsis token. -/
inductive WsRawSubscript where
  | Indices (l : List (Ws × Char))
  | Ellipsis (start : List (Ws × Char)) (pre : Ws) (post : Ws) (end' : List (Ws × Char))

/-- Whole decorated subscripts: leading whitespace, the first subscript,
the remaining subscripts each preceded by whitespace and a comma, and the
optional output preceded by whitespace, the arrow and more whitespace. -/
structure WsRawSubscripts where
  lead : Ws
  first : WsRawSubscript
  rest : List (Ws × WsRawSubscript)
  out : Option (Ws × Ws × WsRawSubscript)

def renderPairs (l : List (Ws × Char)) : List Char := concatMap (fun p => p.1 ++ [p.2]) l

def WsRawSubscript.render : WsRawSubscript → List Char
  | .Indices l => renderPairs l
  | .Ellipsis st pre post en => renderPairs st ++ pre ++ ['.', '.', '.'] ++ post ++ renderPairs en

def WsRawSubscript.strip : WsRawSubscript → RawSubscript
  | .Indices l => .Indices (l.map Prod.snd)
  | .Ellipsis st _ _ en => .Ellipsis (st.map Prod.snd) (en.map Prod.snd)

def renderRest (rs : List (Ws × WsRawSubscript)) : List Char :=
  concatMap (fun p => p.1 ++ [','] ++ p.2.render) rs

def renderOut : Option (Ws × Ws × WsRawSubscript) → List Char
  | none => []
  | some o => o.1 ++ ['-', '>'] ++ o.2.1 ++ o.2.2.render

def WsRawSubscripts.render (w : WsRawSubscripts) : List Char :=
  w.lead ++ w.first.render ++ renderRest w.rest ++ renderOut w.out

def WsRawSubscripts.strip (w : WsRawSubscripts) : RawSubscripts :=
  ⟨w.first.strip :: w.rest.map (fun p => p.2.strip), w.out.map (fun p => p.2.2.strip)⟩

/-- All characters of a whitespace run are whitespace. -/
def wsOk (ws : Ws) : Prop := ∀ c ∈ ws, isWsChar c

instance (ws : Ws) : Decidable (wsOk ws) := by unfold wsOk; infer_instance

/-- All decorations are whitespace and all indices are lowercase. -/
def pairsOk (l : List (Ws × Char)) : Prop := ∀ p ∈ l, wsOk p.1 ∧ isIdxChar p.2

instance (l : List (Ws × Char)) : Decidable (pairsOk l) := by unfold pairsOk; infer_instance

def WsRawSubscript.Ok : WsRawSubscript → Prop
  | .Indices l => pairsOk l
  | .Ellipsis st pre post en => pairsOk st ∧ wsOk pre ∧ wsOk post ∧ pairsOk en

instance (s : WsRawSubscript) : Decidable s.Ok := by
  cases s <;> unfold WsRawSubscript.Ok <;> infer_instance

def outOk : Option (Ws × Ws × WsRawSubscript) → Prop
  | none => True
  | some o => wsOk o.1 ∧ wsOk o.2.1 ∧ o.2.2.Ok

instance (o : Option (Ws × Ws × WsRawSubscript)) : Decidable (outOk o) := by
  cases o <;> unfold outOk <;> infer_instance

def WsRawSubscripts.Ok (w : WsRawSubscripts) : Prop :=
  wsOk w.lead ∧ w.first.Ok ∧ (∀ p ∈ w.rest, wsOk p.1 ∧ p.2.Ok) ∧ outOk w.out

instance (w : WsRawSubscripts) : Decidable w.Ok := by unfold WsRawSubscripts.Ok; infer_instance

/-- A continuation after which every combinator of the `subscripts` parser
stops: after leading whitespace it is empty or starts with a character that is
not an index, not a comma, not the start of an arrow and not the start of an
ellipsis. -/
def blockedChar (c : Char) : Prop := ¬ isIdxChar c ∧ c ≠ ',' ∧ c ≠ '-' ∧ c ≠ '.'

instance (c : Char) : Decidable (blockedChar c) := by unfold blockedChar; infer_instance

def blocked (g : List Char) : Prop := ∀ c ∈ (skipWs g).take 1, blockedChar c

instance (g : List Char) : Decidable (blocked g) := by unfold blocked; infer_instance

/-! ## Concrete values used by the witnesses and counterexamples -/

/-- Implicit-mode raw subscripts `bab` (no output). -/
def rawBab : RawSubscripts := ⟨[.Indices ['b', 'a', 'b']], none⟩

/-- Implicit-mode raw subscripts `i...,j` containing an ellipsis. -/
def rawEllImp : RawSubscripts := ⟨[.Ellipsis ['i'] [], .Indices ['j']], none⟩

/-- Implicit-mode raw subscripts `ab`. -/
def rawAB : RawSubscripts := ⟨[.Indices ['a', 'b']], none⟩

/-- Implicit-mode raw subscripts `ba`. -/
def rawBA : RawSubscripts := ⟨[.Indices ['b', 'a']], none⟩

/-- Explicit-mode raw subscripts `ij,jk->ik`. -/
def rawIJK : RawSubscripts :=
  ⟨[.Indices ['i', 'j'], .Indices ['j', 'k']], some (.Indices ['i', 'k'])⟩

/-- The relabeling swapping `a` and `b`. -/
def sigmaSwap : Char → Char := fun c => if c = 'a' then 'b' else if c = 'b' then 'a' else c

/-- The matrix-chain subscripts used in the planner tests. -/
def matChain : Subscripts :=
  ⟨[⟨.Indices ['a', 'b'], .Arg 0⟩, ⟨.Indices ['b', 'c'], .Arg 1⟩, ⟨.Indices ['c', 'd'], .Arg 2⟩],
    ⟨.Indices ['a', 'd'], .Out 0⟩⟩

/-- A decorated rendering of `ij,jk->ik` with whitespace inserted between
indices, around the comma and around the arrow: `" i j ,jk -> ik"`. -/
def wsExample : WsRawSubscripts :=
  ⟨[' '], .Indices [([], 'i'), ([' '], 'j')],
    [([' '], .Indices [([], 'j'), ([], 'k')])],
    some ([' '], [' '], .Indices [([], 'i'), ([], 'k')])⟩


/-- The three inner/outer factorization pairs of `matChain` (inner subsets
`{arg0,arg1}`, `{arg0,arg2}`, `{arg1,arg2}`), used by the planner witness. -/
def mcInner1 : Subscripts :=
  ⟨[⟨.Indices ['a','b'], .Arg 0⟩, ⟨.Indices ['b','c'], .Arg 1⟩], ⟨.Indices ['a','c'], .Out 1⟩⟩

def mcOuter1 : Subscripts :=
  ⟨[⟨.Indices ['a','b'], .Out 1⟩, ⟨.Indices ['b','c'], .Arg 2⟩], ⟨.Indices ['a','c'], .Out 0⟩⟩

def mcInner2 : Subscripts :=
  ⟨[⟨.Indices ['a','b'], .Arg 0⟩, ⟨.Indices ['c','d'], .Arg 2⟩], ⟨.Indices ['a','b','c','d'], .Out 1⟩⟩

def mcOuter2 : Subscripts :=
  ⟨[⟨.Indices ['a','b','c','d'], .Out 1⟩, ⟨.Indices ['b','c'], .Arg 1⟩], ⟨.Indices ['a','d'], .Out 0⟩⟩

def mcInner3 : Subscripts :=
  ⟨[⟨.Indices ['a','b'], .Arg 1⟩, ⟨.Indices ['b','c'], .Arg 2⟩], ⟨.Indices ['a','c'], .Out 1⟩⟩

def mcOuter3 : Subscripts :=
  ⟨[⟨.Indices ['a','b'], .Out 1⟩, ⟨.Indices ['c','a'], .Arg 0⟩], ⟨.Indices ['c','b'], .Out 0⟩⟩


/-- The remapping map reached after the distinct characters `seen` (in first
appearance order) have been processed, starting at code `97 + k`. -/
def mapOfAux : Nat → List Char → List (Char × Char)
  | _, [] => []
  | k, c :: cs => (c, Char.ofNat (97 + k)) :: mapOfAux (k + 1) cs

def mapOf (seen : List Char) : List (Char × Char) := mapOfAux 0 seen


/-- After leading whitespace, the input does not continue with an index
character (so `many0(multispace0, index)` stops). -/
def noIdxAhead (t : List Char) : Prop := ∀ c ∈ (skipWs t).take 1, ¬ isIdxChar c

instance (t : List Char) : Decidable (noIdxAhead t) := by unfold noIdxAhead; infer_instance

/-- After leading whitespace, the input does not continue with a dot (so the
optional ellipsis branch fails and backtracks). -/
def noDotAhead (t : List Char) : Prop := ∀ c ∈ (skipWs t).take 1, c ≠ '.'

instance (t : List Char) : Decidable (noDotAhead t) := by unfold noDotAhead; infer_instance

/-- After leading whitespace, the input does not continue with a comma (so the
separated-list loop stops). -/
def noCommaAhead (t : List Char) : Prop := ∀ c ∈ (skipWs t).take 1, c ≠ ','

instance (t : List Char) : Decidable (noCommaAhead t) := by unfold noCommaAhead; infer_instance

/-- After leading whitespace, the input does not continue with a dash (so the
optional arrow branch fails and backtracks). -/
def noDashAhead (t : List Char) : Prop := ∀ c ∈ (skipWs t).take 1, c ≠ '-'

instance (t : List Char) : Decidable (noDashAhead t) := by unfold noDashAhead; infer_instance

/-! # Theorems

First a collection of generic lemmas about the list utilities, then one
theorem (plus witness / counterexample where applicable) per claim. -/

theorem countc_pos_iff_mem (c : Char) (l : List Char) : 0 < countc c l ↔ c ∈ l := by
  induction l with
  | nil => simp [countc]
  | cons x xs ih =>
    simp only [countc, List.mem_cons]
    by_cases hx : x = c
    · simp [hx]
    · simp only [hx, if_false]
      rw [Nat.zero_add, ih]
      constructor
      · exact Or.inr
      · rintro (h | h)
        · exact absurd h.symm hx
        · exact h

theorem countc_append (c : Char) (l1 l2 : List Char) :
    countc c (l1 ++ l2) = countc c l1 + countc c l2 := by
  induction l1 with
  | nil => simp [countc]
  | cons x xs ih => simp [countc, ih]; omega

theorem mem_concatMap {f : α → List β} {l : List α} {b : β} :
    b ∈ concatMap f l ↔ ∃ a ∈ l, b ∈ f a := by
  induction l with
  | nil => simp [concatMap]
  | cons x xs ih =>
    simp [concatMap, List.mem_append, ih]

theorem mem_insertSortedChar {a c : Char} {l : List Char} :
    a ∈ insertSortedChar c l ↔ a = c ∨ a ∈ l := by
  induction l with
  | nil => simp [insertSortedChar]
  | cons x xs ih =>
    simp only [insertSortedChar]
    split
    · simp [List.mem_cons]
    · split
      next hcx =>
        subst hcx
        simp only [List.mem_cons]
        constructor
        · exact Or.inr
        · rintro (h | h)
          · exact Or.inl h
          · exact h
      · simp only [List.mem_cons, ih]
        tauto

theorem pairwise_insertSortedChar {c : Char} {l : List Char}
    (h : l.Pairwise (· < ·)) : (insertSortedChar c l).Pairwise (· < ·) := by
  induction l with
  | nil => simp [insertSortedChar]
  | cons x xs ih =>
    rw [List.pairwise_cons] at h
    obtain ⟨hx, hxs⟩ := h
    simp only [insertSortedChar]
    split
    next hlt =>
      rw [List.pairwise_cons]
      refine ⟨?_, List.pairwise_cons.mpr ⟨hx, hxs⟩⟩
      intro y hy
      rcases List.mem_cons.mp hy with rfl | hy
      · exact hlt
      · exact lt_trans hlt (hx y hy)
    · split
      next hcx =>
        exact List.pairwise_cons.mpr ⟨hx, hxs⟩
      next hlt hne =>
        have hxc : x < c := by
          rcases lt_trichotomy c x with h | h | h
          · exact absurd h hlt
          · exact absurd h hne
          · exact h
        rw [List.pairwise_cons]
        refine ⟨?_, ih hxs⟩
        intro y hy
        rcases mem_insertSortedChar.mp hy with rfl | hy
        · exact hxc
        · exact hx y hy

theorem pairwise_sortedKeys (cs : List Char) : (sortedKeys cs).Pairwise (· < ·) := by
  induction cs with
  | nil => simp [sortedKeys]
  | cons c cs ih => exact pairwise_insertSortedChar ih

theorem mem_sortedKeys {a : Char} {cs : List Char} : a ∈ sortedKeys cs ↔ a ∈ cs := by
  induction cs with
  | nil => simp [sortedKeys]
  | cons c cs ih =>
    show a ∈ insertSortedChar c (sortedKeys cs) ↔ _
    rw [mem_insertSortedChar, ih]
    simp [List.mem_cons]

theorem filterMap_pair_filter (l : List Char) (g : Char → Nat) (P : Nat → Prop)
    [DecidablePred P] :
    (l.map (fun c => (c, g c))).filterMap
        (fun kv => if P kv.2 then some kv.1 else none)
      = l.filter (fun c => P (g c)) := by
  induction l with
  | nil => simp
  | cons x xs ih =>
    by_cases hx : P (g x)
    · simp [List.filterMap_cons, List.filter_cons, hx, ih]
    · simp [List.filterMap_cons, List.filter_cons, hx, ih]

theorem implicitOutput_eq_filter (inputs : List Subscript) :
    implicitOutput inputs
      = (sortedKeys (concatMap Subscript.indices inputs)).filter
          (fun c => countc c (concatMap Subscript.indices inputs) = 1) := by
  unfold implicitOutput count_indices
  exact filterMap_pair_filter (sortedKeys (concatMap Subscript.indices inputs))
    (fun c => countc c (concatMap Subscript.indices inputs)) (fun n => n = 1)

theorem mem_implicitOutput {inputs : List Subscript} {c : Char} :
    c ∈ implicitOutput inputs ↔ countc c (concatMap Subscript.indices inputs) = 1 := by
  rw [implicitOutput_eq_filter, List.mem_filter]
  constructor
  · intro h
    simpa using h.2
  · intro h
    refine ⟨mem_sortedKeys.mpr ((countc_pos_iff_mem _ _).mp (by omega)), by simpa using h⟩

theorem pairwise_implicitOutput (inputs : List Subscript) :
    (implicitOutput inputs).Pairwise (· < ·) := by
  rw [implicitOutput_eq_filter]
  exact List.Pairwise.filter _ (pairwise_sortedKeys _)

/-- C4: for implicit-mode raw subscripts, `from_raw` synthesizes the
pre-remapping output as exactly the indices occurring exactly once across all
inputs, in alphabetical (ascending) order. -/
theorem from_raw_implicit_output (names : Namespace) (raw : RawSubscripts)
    (h : raw.output = none) :
    (from_raw_pre names raw).1.output.raw
        = RawSubscript.Indices (implicitOutput (argInputs raw)) ∧
      (∀ c, c ∈ implicitOutput (argInputs raw) ↔
        countc c (concatMap Subscript.indices (argInputs raw)) = 1) ∧
      (implicitOutput (argInputs raw)).Pairwise (· < ·) := by
  refine ⟨?_, fun c => mem_implicitOutput, pairwise_implicitOutput _⟩
  simp [from_raw_pre, h]

/-- Witness for C4 at the concrete implicit subscripts `bab`. -/
theorem from_raw_implicit_output_witness :
    rawBab.output = none ∧
      ((from_raw_pre Namespace.init rawBab).1.output.raw
          = RawSubscript.Indices (implicitOutput (argInputs rawBab)) ∧
        (∀ c, c ∈ implicitOutput (argInputs rawBab) ↔
          countc c (concatMap Subscript.indices (argInputs rawBab)) = 1) ∧
        (implicitOutput (argInputs rawBab)).Pairwise (· < ·)) :=
  ⟨rfl, from_raw_implicit_output Namespace.init rawBab rfl⟩

/-- C3: the pre-remapping output of the inner factorization step contains an
index character iff it occurs exactly once among the inner inputs, or at
least twice among the inner inputs and at least once among the outer inputs. -/
theorem factorize_inner_output (s : Subscripts) (inners : List Position) (c : Char) :
    c ∈ factorizeOut s inners ↔
      (countc c (concatMap Subscript.indices (s.inputs.filter (fun i => i.position ∈ inners))) = 1
        ∨ (2 ≤ countc c
              (concatMap Subscript.indices (s.inputs.filter (fun i => i.position ∈ inners)))
            ∧ 1 ≤ countc c
              (concatMap Subscript.indices
                (s.inputs.filter (fun i => ¬ i.position ∈ inners))))) := by
  unfold factorizeOut
  rw [List.mem_filter]
  constructor
  · intro h
    have := h.2
    simp only [decide_eq_true_eq] at this
    omega
  · intro h
    constructor
    · rw [mem_sortedKeys, ← countc_pos_iff_mem, countc_append]
      omega
    · simp only [decide_eq_true_eq]
      omega

/-- Instantiation of C3 at the matrix-chain subscripts with inner subset
`{arg0, arg1}`: the inner output is `ac` (note `factorize_inner_output` has
no hypotheses; this example also pins the computed value). -/
theorem factorize_inner_output_example :
    factorizeOut matChain [Position.Arg 0, Position.Arg 1] = ['a', 'c'] := by decide

/-- C10: in implicit mode the synthesized output is always a plain `Indices`
subscript, also when the inputs contain an ellipsis form: before remapping it
is exactly `Indices (implicitOutput ...)`, and the final output keeps the
`Indices` constructor through remapping. -/
theorem implicit_output_no_ellipsis (names : Namespace) (raw : RawSubscripts)
    (h : raw.output = none) (hell : ∃ i ∈ raw.inputs, i.hasEllipsis) :
    (from_raw_pre names raw).1.output.raw
        = RawSubscript.Indices (implicitOutput (argInputs raw)) ∧
      ∃ cs, ((Subscripts.from_raw names raw).1).output.raw = RawSubscript.Indices cs := by
  have h1 : (from_raw_pre names raw).1.output.raw
      = RawSubscript.Indices (implicitOutput (argInputs raw)) := by
    simp [from_raw_pre, h]
  refine ⟨h1, ?_⟩
  show ∃ cs, ((from_raw_pre names raw).1.remap_indices).output.raw = RawSubscript.Indices cs
  unfold Subscripts.remap_indices
  rw [h1]
  exact ⟨_, rfl⟩

/-- Witness for C10 at the implicit ellipsis-bearing subscripts `i...,j`. -/
theorem implicit_output_no_ellipsis_witness :
    rawEllImp.output = none ∧ (∃ i ∈ rawEllImp.inputs, i.hasEllipsis) ∧
      ((from_raw_pre Namespace.init rawEllImp).1.output.raw
          = RawSubscript.Indices (implicitOutput (argInputs rawEllImp)) ∧
        ∃ cs, ((Subscripts.from_raw Namespace.init rawEllImp).1).output.raw
          = RawSubscript.Indices cs) :=
  ⟨rfl, by decide,
    implicit_output_no_ellipsis Namespace.init rawEllImp rfl (by decide)⟩

theorem contraction_indices_eq_filter (s : Subscripts) :
    s.contraction_indices
      = ((sortedKeys (concatMap Subscript.indices s.inputs)).filter
          (fun c => 1 < countc c (concatMap Subscript.indices s.inputs))).filter
          (fun c => ¬ c ∈ s.output.indices) := by
  unfold Subscripts.contraction_indices
  congr 1
  unfold count_indices
  exact filterMap_pair_filter (sortedKeys (concatMap Subscript.indices s.inputs))
    (fun c => countc c (concatMap Subscript.indices s.inputs)) (fun n => 1 < n)

theorem pairwise_contraction_indices (s : Subscripts) :
    s.contraction_indices.Pairwise (· < ·) := by
  rw [contraction_indices_eq_filter]
  exact List.Pairwise.filter _ (List.Pairwise.filter _ (pairwise_sortedKeys _))

theorem loopIndices_contraction_for (indices : List Char) (inner : RStmt) :
    (contraction_for indices inner).loopIndices = indices ++ inner.loopIndices := by
  induction indices with
  | nil => simp [contraction_for]
  | cons i is' ih =>
    show (RStmt.forLoop i (contraction_for is' inner)).loopIndices = _
    simp [RStmt.loopIndices, ih]

theorem innermost_contraction_for (indices : List Char) (inner : RStmt)
    (h : ∀ i body, inner ≠ .forLoop i body) :
    (contraction_for indices inner).innermost = inner := by
  induction indices with
  | nil =>
    simp only [contraction_for, List.foldr_nil]
    cases inner with
    | forLoop i body => exact absurd rfl (h i body)
    | assign p idx r => rfl
    | addAssign p idx r => rfl
  | cons i is' ih =>
    show (RStmt.forLoop i (contraction_for is' inner)).innermost = inner
    simp only [RStmt.innermost]
    exact ih

/-- C2: the emitted contraction loops over the output indices (in output
order) followed by the contraction indices (strictly ascending, hence one
loop per distinct contraction index and disjoint from the output list), and
its innermost statement is a plain `=` assignment (not `+=`) whose right-hand
side is the product of the input element accesses in input order, assigned to
the output element indexed by the output indices. -/
theorem contraction_structure (s : Subscripts) :
    (contraction s).loopIndices = s.output.indices ++ s.contraction_indices ∧
      s.contraction_indices.Pairwise (· < ·) ∧
      (∀ c ∈ s.contraction_indices, ¬ c ∈ s.output.indices) ∧
      (contraction s).innermost
        = RStmt.assign s.output.position s.output.indices
            (mulChain (s.inputs.map (fun inp => RExpr.access inp.position inp.indices))) ∧
      ∀ p idx r, (contraction s).innermost ≠ RStmt.addAssign p idx r := by
  have hinner : (contraction s).innermost = contraction_inner s := by
    unfold contraction
    exact innermost_contraction_for _ _ (by intro i body h; simp [contraction_inner] at h)
  refine ⟨?_, pairwise_contraction_indices s, ?_, ?_, ?_⟩
  · unfold contraction
    rw [loopIndices_contraction_for]
    simp [contraction_inner, RStmt.loopIndices]
  · intro c hc
    rw [contraction_indices_eq_filter] at hc
    have := (List.mem_filter.mp hc).2
    simpa using this
  · rw [hinner]; rfl
  · intro p idx r
    rw [hinner]
    simp [contraction_inner]

/-- Instantiation of C2 at the matrix-multiplication step `ab,bc->ac`:
loops `a, c, b`, innermost `out0[(a,c)] = arg0[(a,b)] * arg1[(b,c)]`. -/
theorem contraction_structure_example :
    (contraction ⟨[⟨.Indices ['a', 'b'], .Arg 0⟩, ⟨.Indices ['b', 'c'], .Arg 1⟩],
        ⟨.Indices ['a', 'c'], .Out 0⟩⟩).loopIndices = ['a', 'c', 'b'] ∧
      (contraction ⟨[⟨.Indices ['a', 'b'], .Arg 0⟩, ⟨.Indices ['b', 'c'], .Arg 1⟩],
        ⟨.Indices ['a', 'c'], .Out 0⟩⟩).innermost
        = RStmt.assign (.Out 0) ['a', 'c']
            (some (.mul (.access (.Arg 0) ['a', 'b']) (.access (.Arg 1) ['b', 'c']))) := by
  constructor <;> rfl

theorem length_remapInputs (l : List Subscript) (m : List (Char × Char)) :
    (remapInputs m l).2.length = l.length := by
  induction l generalizing m with
  | nil => simp [remapInputs]
  | cons i is' ih => simp [remapInputs, ih]

theorem length_remap_indices (s : Subscripts) :
    s.remap_indices.inputs.length = s.inputs.length := by
  simp [Subscripts.remap_indices, length_remapInputs]

theorem length_argInputs' (k : Nat) (l : List RawSubscript) :
    (argInputs' k l).length = l.length := by
  induction l generalizing k with
  | nil => rfl
  | cons r rs ih => simp [argInputs', ih]

theorem length_from_raw_inputs (names : Namespace) (raw : RawSubscripts) :
    (Subscripts.from_raw names raw).1.inputs.length = raw.inputs.length := by
  show (from_raw_pre names raw).1.remap_indices.inputs.length = _
  rw [length_remap_indices]
  unfold from_raw_pre
  rcases raw with ⟨inputs, output⟩
  cases output <;> simp [argInputs, length_argInputs']

/-- Counterexample to C7 as stated: at subscripts `ij,jk->ik` with a single
argument expression the entry aborts, but the diagnostic is the fixed string
`"Argument number mismatch"`, which contains no digit at all, so it does not
cite the expected count (2) or the actual count (1). -/
theorem fromStr_ijk : RawSubscripts.fromStr "ij,jk->ik" = some rawIJK := by
  show some (pSubscripts ('i' :: 'j' :: ',' :: 'j' :: 'k' :: '-' :: '>' :: 'i' :: 'k' :: [])).1 = _
  simp [pSubscripts, pSubscriptsRest, pSubscript, pIndices, skipWs, rawIJK, isWsChar, isIdxChar]

theorem einsum2_no_counts_in_diagnostic :
    einsum2 "ij,jk->ik" 1 = Except.error "Argument number mismatch" ∧
      ∀ c ∈ "Argument number mismatch".data, ¬ c.isDigit := by
  constructor
  · unfold einsum2
    rw [fromStr_ijk]
    rfl
  · decide

/-- C7 (amended): on an argument-count mismatch the entry fails with the fixed
diagnostic `"Argument number mismatch"` (citing neither count), and it
succeeds past this check iff the number of parsed input subscripts equals the
number of argument expressions. -/
theorem einsum2_argcount (s : String) (raw : RawSubscripts) (n : Nat)
    (h : RawSubscripts.fromStr s = some raw) :
    ((einsum2 s n).isOk ↔ raw.inputs.length = n) ∧
      (raw.inputs.length ≠ n → einsum2 s n = Except.error "Argument number mismatch") := by
  unfold einsum2
  rw [h]
  simp only [length_from_raw_inputs]
  by_cases hn : raw.inputs.length = n
  · simp [hn, Except.isOk, Except.toBool]
  · simp [hn, Except.isOk, Except.toBool]

/-- Witness for C7 at `ij,jk->ik` with two arguments (check passes) and the
parse of the literal discharged by `rfl`. -/
theorem einsum2_argcount_witness :
    RawSubscripts.fromStr "ij,jk->ik" = some rawIJK ∧
      (((einsum2 "ij,jk->ik" 2).isOk ↔ rawIJK.inputs.length = 2) ∧
        (rawIJK.inputs.length ≠ 2 →
          einsum2 "ij,jk->ik" 2 = Except.error "Argument number mismatch")) :=
  ⟨fromStr_ijk, einsum2_argcount "ij,jk->ik" rawIJK 2 fromStr_ijk⟩

theorem keyLe_refl (a : Nat × Nat) : keyLe a a := by unfold keyLe; omega

theorem keyLe_trans {a b c : Nat × Nat} (h1 : keyLe a b) (h2 : keyLe b c) : keyLe a c := by
  unfold keyLe at *; omega

theorem keyLe_of_lt {a b : Nat × Nat} (h : keyLt a b) : keyLe a b := by
  unfold keyLt at h; unfold keyLe; omega

theorem keyLe_of_not_lt {a b : Nat × Nat} (h : ¬ keyLt a b) : keyLe b a := by
  unfold keyLt at h; unfold keyLe; omega

theorem foldl_minBy (key : α → Nat × Nat) (xs : List α) :
    ∀ x : α,
      ((xs.foldl (fun best y => if keyLt (key y) (key best) then y else best) x) = x
          ∨ (xs.foldl (fun best y => if keyLt (key y) (key best) then y else best) x) ∈ xs) ∧
        keyLe (key (xs.foldl (fun best y => if keyLt (key y) (key best) then y else best) x))
          (key x) ∧
        ∀ y ∈ xs,
          keyLe (key (xs.foldl (fun best y => if keyLt (key y) (key best) then y else best) x))
            (key y) := by
  induction xs with
  | nil => exact fun x => ⟨Or.inl rfl, keyLe_refl _, by simp⟩
  | cons y ys ih =>
    intro x
    simp only [List.foldl_cons]
    obtain ⟨hmem, hx, hall⟩ := ih (if keyLt (key y) (key x) then y else x)
    by_cases hlt : keyLt (key y) (key x)
    · rw [if_pos hlt] at hmem hx hall
      rw [if_pos hlt]
      refine ⟨?_, keyLe_trans hx (keyLe_of_lt hlt), ?_⟩
      · rcases hmem with h | h
        · exact Or.inr (by simp [h])
        · exact Or.inr (by simp [h])
      · intro z hz
        rcases List.mem_cons.mp hz with rfl | hz
        · exact hx
        · exact hall z hz
    · rw [if_neg hlt] at hmem hx hall
      rw [if_neg hlt]
      refine ⟨?_, hx, ?_⟩
      · rcases hmem with h | h
        · exact Or.inl h
        · exact Or.inr (by simp [h])
      · intro z hz
        rcases List.mem_cons.mp hz with rfl | hz
        · exact keyLe_trans hx (keyLe_of_not_lt hlt)
        · exact hall z hz

theorem minByKey_le (key : α → Nat × Nat) (l : List α) (m : α)
    (h : minByKey key l = some m) : ∀ y ∈ l, keyLe (key m) (key y) := by
  match l with
  | [] => exact absurd h (by simp [minByKey])
  | x :: xs =>
    obtain ⟨hmem, hx, hall⟩ := foldl_minBy key xs x
    have hm : m = xs.foldl (fun best y => if keyLt (key y) (key best) then y else best) x := by
      simpa [minByKey] using h.symm
    intro y hy
    rcases List.mem_cons.mp hy with rfl | hy
    · rw [hm]; exact hx
    · rw [hm]; exact hall y hy

theorem minByKey_mem (key : α → Nat × Nat) (l : List α) (m : α)
    (h : minByKey key l = some m) : m ∈ l := by
  match l with
  | [] => exact absurd h (by simp [minByKey])
  | x :: xs =>
    obtain ⟨hmem, _, _⟩ := foldl_minBy key xs x
    have hm : m = xs.foldl (fun best y => if keyLt (key y) (key best) then y else best) x := by
      simpa [minByKey] using h.symm
    rw [hm]
    rcases hmem with h | h
    · simp [h]
    · simp [h]

theorem brute_force_work_eq (names : Namespace) (s : Subscripts) :
    brute_force_work names s = (minByKey pathKey (bfwCandidates names s)).getD [] := by
  rw [brute_force_work.eq_def]
  unfold bfwCandidates
  by_cases h : s.inputs.length ≤ 2
  · rw [if_pos h, if_pos h]
    rfl
  · rw [if_neg h, if_neg h]
    rw [List.attach_map_val (maskCands s.inputs)
      (fun pos => (s.factorize names pos).1.1
        :: brute_force_work (s.factorize names pos).2 (s.factorize names pos).1.2)]
    cases hm : minByKey pathKey
        ((maskCands s.inputs).map (fun pos => (s.factorize names pos).1.1
          :: brute_force_work (s.factorize names pos).2 (s.factorize names pos).1.2) ++ [[s]]) with
    | none => simp [hm]
    | some best => simp [hm]

theorem bfw_small (names : Namespace) (s : Subscripts) (h : s.inputs.length ≤ 2) :
    brute_force_work names s = [s] := by
  rw [brute_force_work.eq_def, if_pos h]

theorem bfwCandidates_nonempty_elems (names : Namespace) (s : Subscripts) :
    ∀ c ∈ bfwCandidates names s, c ≠ [] := by
  intro c hc
  unfold bfwCandidates at hc
  split at hc
  · simp at hc
    simp [hc]
  · rcases List.mem_append.mp hc with h | h
    · obtain ⟨pos, _, hposeq⟩ := List.mem_map.mp h
      rw [← hposeq]
      simp
    · simp at h
      simp [h]

/-- C8: the planner's candidate set always contains the identity single-step
plan `[s]`, the minimization over it always yields a value (the `expect` is
unreachable), and `brute_force_work` always returns a non-empty plan. -/
theorem planner_never_vacuous (names : Namespace) (s : Subscripts) :
    [s] ∈ bfwCandidates names s ∧
      (minByKey pathKey (bfwCandidates names s)).isSome = true ∧
      brute_force_work names s ≠ [] := by
  have hmem : [s] ∈ bfwCandidates names s := by
    unfold bfwCandidates
    split
    · simp
    · simp
  have hne : bfwCandidates names s ≠ [] := by
    intro h
    rw [h] at hmem
    simp at hmem
  have hsome : (minByKey pathKey (bfwCandidates names s)).isSome = true := by
    rcases hc : bfwCandidates names s with _ | ⟨x, xs⟩
    · exact absurd hc hne
    · simp [minByKey]
  refine ⟨hmem, hsome, ?_⟩
  rw [brute_force_work_eq]
  rcases hm : minByKey pathKey (bfwCandidates names s) with _ | m
  · rw [hm] at hsome
    simp at hsome
  · simp only [Option.getD_some]
    exact bfwCandidates_nonempty_elems names s m (minByKey_mem _ _ _ hm)

/-- C1: the plan returned by `Path::brute_force` has a lexicographic
`(max compute_order, max memory_order)` key at most that of every candidate
plan the planner enumerates for the same subscripts (every admissible
factorization followed by a recursively planned remainder, plus the identity
plan). -/
theorem brute_force_optimal (indices : String) (sn : Subscripts × Namespace) (p : Path')
    (h1 : Subscripts.from_raw_indices Namespace.init indices = some sn)
    (h2 : Path'.brute_force indices = some p)
    (c : List Subscripts) (hc : c ∈ bfwCandidates sn.2 sn.1) :
    keyLe (pathKey p.reduced_subscripts) (pathKey c) := by
  have hp : p = ⟨sn.1, brute_force_work sn.2 sn.1⟩ := by
    unfold Path'.brute_force at h2
    rw [h1] at h2
    simpa using h2.symm
  rw [hp]
  show keyLe (pathKey (brute_force_work sn.2 sn.1)) (pathKey c)
  rw [brute_force_work_eq]
  rcases hm : minByKey pathKey (bfwCandidates sn.2 sn.1) with _ | m
  · exfalso
    rcases hl : bfwCandidates sn.2 sn.1 with _ | ⟨x, xs⟩
    · rw [hl] at hc
      simp at hc
    · rw [hl] at hm
      simp [minByKey] at hm
  · simp only [Option.getD_some]
    exact minByKey_le _ _ _ hm c hc

/-- Witness for C1 at `ab,bc,cd->ad`: the returned two-step plan (two GEMM
steps with key `(3,2)`) is keyed at most the identity candidate (key `(4,2)`). -/
theorem brute_force_optimal_witness :
    Subscripts.from_raw_indices Namespace.init "ab,bc,cd->ad" = some (matChain, ⟨1⟩) ∧
      Path'.brute_force "ab,bc,cd->ad" = some ⟨matChain, [mcInner1, mcOuter1]⟩ ∧
      [matChain] ∈ bfwCandidates ⟨1⟩ matChain ∧
      keyLe (pathKey (Path'.mk matChain [mcInner1, mcOuter1]).reduced_subscripts)
        (pathKey [matChain]) := by
  have hparse : RawSubscripts.fromStr "ab,bc,cd->ad"
      = some ⟨[.Indices ['a','b'], .Indices ['b','c'], .Indices ['c','d']],
          some (.Indices ['a','d'])⟩ := by
    show some (pSubscripts
      ('a' :: 'b' :: ',' :: 'b' :: 'c' :: ',' :: 'c' :: 'd' :: '-' :: '>' :: 'a' :: 'd' :: [])).1
      = _
    simp [pSubscripts, pSubscriptsRest, pSubscript, pIndices, skipWs, isWsChar, isIdxChar]
  have h1 : Subscripts.from_raw_indices Namespace.init "ab,bc,cd->ad"
      = some (matChain, ⟨1⟩) := by
    unfold Subscripts.from_raw_indices
    rw [hparse]
    rfl
  have hcands : bfwCandidates ⟨1⟩ matChain
      = [[mcInner1, mcOuter1], [mcInner2, mcOuter2], [mcInner3, mcOuter3], [matChain]] := by
    unfold bfwCandidates
    rw [if_neg (by decide)]
    have hmc : maskCands matChain.inputs
        = [[Position.Arg 0, Position.Arg 1], [Position.Arg 0, Position.Arg 2],
            [Position.Arg 1, Position.Arg 2]] := by decide
    rw [hmc]
    simp only [List.map_cons, List.map_nil]
    rw [show matChain.factorize ⟨1⟩ [Position.Arg 0, Position.Arg 1]
        = ((mcInner1, mcOuter1), ⟨2⟩) from by decide]
    rw [show matChain.factorize ⟨1⟩ [Position.Arg 0, Position.Arg 2]
        = ((mcInner2, mcOuter2), ⟨2⟩) from by decide]
    rw [show matChain.factorize ⟨1⟩ [Position.Arg 1, Position.Arg 2]
        = ((mcInner3, mcOuter3), ⟨2⟩) from by decide]
    rw [bfw_small ⟨2⟩ mcOuter1 (by decide), bfw_small ⟨2⟩ mcOuter2 (by decide),
      bfw_small ⟨2⟩ mcOuter3 (by decide)]
    rfl
  have hbfw : brute_force_work ⟨1⟩ matChain = [mcInner1, mcOuter1] := by
    rw [brute_force_work_eq, hcands]
    rw [show minByKey pathKey
        [[mcInner1, mcOuter1], [mcInner2, mcOuter2], [mcInner3, mcOuter3], [matChain]]
        = some [mcInner1, mcOuter1] from by decide]
    rfl
  have h2 : Path'.brute_force "ab,bc,cd->ad" = some ⟨matChain, [mcInner1, mcOuter1]⟩ := by
    unfold Path'.brute_force
    rw [h1]
    simp [hbfw]
  have hcmem : [matChain] ∈ bfwCandidates ⟨1⟩ matChain := by
    rw [hcands]
    simp
  exact ⟨h1, h2, hcmem,
    brute_force_optimal "ab,bc,cd->ad" (matChain, ⟨1⟩) ⟨matChain, [mcInner1, mcOuter1]⟩
      h1 h2 [matChain] hcmem⟩

theorem idxOf_lt_length {c : Char} {l : List Char} (h : c ∈ l) : idxOf c l < l.length := by
  induction l with
  | nil => simp at h
  | cons x xs ih =>
    simp only [idxOf]
    split
    · simp
    · next hne =>
      have : c ∈ xs := by
        rcases List.mem_cons.mp h with rfl | h2
        · exact absurd rfl hne
        · exact h2
      simpa using ih this

theorem idxOf_inj {a b : Char} {l : List Char} (ha : a ∈ l) (hb : b ∈ l)
    (h : idxOf a l = idxOf b l) : a = b := by
  induction l with
  | nil => simp at ha
  | cons x xs ih =>
    simp only [idxOf] at h
    by_cases hxa : x = a
    · by_cases hxb : x = b
      · rw [← hxa, hxb]
      · rw [if_pos hxa, if_neg hxb] at h
        omega
    · by_cases hxb : x = b
      · rw [if_neg hxa, if_pos hxb] at h
        omega
      · rw [if_neg hxa, if_neg hxb] at h
        have ha2 : a ∈ xs := by
          rcases List.mem_cons.mp ha with rfl | h2
          · exact absurd rfl hxa
          · exact h2
        have hb2 : b ∈ xs := by
          rcases List.mem_cons.mp hb with rfl | h2
          · exact absurd rfl hxb
          · exact h2
        exact ih ha2 hb2 (by omega)

theorem idxOf_of_isPrefix {c : Char} {l1 l2 : List Char} (hc : c ∈ l1) (h : l1 <+: l2) :
    idxOf c l2 = idxOf c l1 := by
  obtain ⟨t, rfl⟩ := h
  induction l1 with
  | nil => simp at hc
  | cons x xs ih =>
    simp only [List.cons_append, List.append_eq, idxOf]
    split
    · rfl
    · next hne =>
      have : c ∈ xs := by
        rcases List.mem_cons.mp hc with rfl | h2
        · exact absurd rfl hne
        · exact h2
      rw [ih this]

theorem idxOf_append_self {c : Char} {l : List Char} (h : ¬ c ∈ l) :
    idxOf c (l ++ [c]) = l.length := by
  induction l with
  | nil => simp [idxOf]
  | cons x xs ih =>
    simp only [List.cons_append, List.append_eq, idxOf]
    rw [if_neg (by intro hx; exact h (by simp [hx]))]
    rw [ih (by intro hx; exact h (by simp [hx]))]
    simp

theorem idxOf_map {σ : Char → Char} (hσ : Function.Injective σ) (c : Char) (l : List Char) :
    idxOf (σ c) (l.map σ) = idxOf c l := by
  induction l with
  | nil => simp [idxOf]
  | cons x xs ih =>
    simp only [List.map_cons, idxOf]
    by_cases hx : x = c
    · rw [if_pos hx, if_pos (by rw [hx])]
    · rw [if_neg hx, if_neg (fun he => hx (hσ he)), ih]

theorem firstOccsFrom_isPrefix (seen : List Char) (cs : List Char) :
    seen <+: firstOccsFrom seen cs := by
  induction cs generalizing seen with
  | nil => exact ⟨[], by simp [firstOccsFrom]⟩
  | cons c cs ih =>
    simp only [firstOccsFrom]
    split
    · exact ih seen
    · obtain ⟨t, ht⟩ := ih (seen ++ [c])
      exact ⟨[c] ++ t, by simp [← ht]⟩

theorem firstOccsFrom_append (seen l1 l2 : List Char) :
    firstOccsFrom seen (l1 ++ l2) = firstOccsFrom (firstOccsFrom seen l1) l2 := by
  induction l1 generalizing seen with
  | nil => simp [firstOccsFrom]
  | cons c cs ih =>
    simp only [List.cons_append, firstOccsFrom]
    split
    · exact ih seen
    · exact ih (seen ++ [c])

theorem mem_firstOccsFrom {a : Char} (seen cs : List Char) :
    a ∈ firstOccsFrom seen cs ↔ a ∈ seen ∨ a ∈ cs := by
  induction cs generalizing seen with
  | nil => simp [firstOccsFrom]
  | cons c cs ih =>
    simp only [firstOccsFrom]
    split
    · next hc =>
      rw [ih]
      simp only [List.mem_cons]
      constructor
      · rintro (h | h)
        · exact Or.inl h
        · exact Or.inr (Or.inr h)
      · rintro (h | rfl | h)
        · exact Or.inl h
        · exact Or.inl hc
        · exact Or.inr h
    · rw [ih]
      simp only [List.mem_append, List.mem_singleton, List.mem_cons]
      tauto

theorem nodup_firstOccsFrom {seen : List Char} (h : seen.Nodup) (cs : List Char) :
    (firstOccsFrom seen cs).Nodup := by
  induction cs generalizing seen with
  | nil => exact h
  | cons c cs ih =>
    simp only [firstOccsFrom]
    split
    · exact ih h
    · next hc =>
      exact ih (by simp [List.nodup_append, h, hc])

theorem length_mapOfAux (k : Nat) (seen : List Char) :
    (mapOfAux k seen).length = seen.length := by
  induction seen generalizing k with
  | nil => rfl
  | cons c cs ih => simp [mapOfAux, ih]

theorem mapOfAux_append (k : Nat) (l1 l2 : List Char) :
    mapOfAux k (l1 ++ l2) = mapOfAux k l1 ++ mapOfAux (k + l1.length) l2 := by
  induction l1 generalizing k with
  | nil => simp [mapOfAux]
  | cons c cs ih =>
    simp only [List.cons_append, List.append_eq, mapOfAux, ih]
    simp only [List.length_cons]
    rw [show k + (cs.length + 1) = k + 1 + cs.length by omega]

theorem lookupChar_mapOfAux (k : Nat) (seen : List Char) (c : Char) :
    lookupChar (mapOfAux k seen) c
      = if c ∈ seen then some (Char.ofNat (97 + k + idxOf c seen)) else none := by
  induction seen generalizing k with
  | nil => simp [mapOfAux, lookupChar]
  | cons x xs ih =>
    simp only [mapOfAux, lookupChar, idxOf]
    by_cases hcx : c = x
    · subst hcx
      rw [if_pos rfl, if_pos (by simp), if_pos rfl]
      simp
    · rw [if_neg hcx, ih (k + 1), if_neg (show ¬ x = c from fun h => hcx h.symm)]
      by_cases hm : c ∈ xs
      · rw [if_pos hm, if_pos (by simp [hm])]
        rw [show 97 + (k + 1) + idxOf c xs = 97 + k + (idxOf c xs + 1) by omega]
      · rw [if_neg hm, if_neg (by
          simp only [List.mem_cons]
          rintro (h | h)
          · exact hcx h
          · exact hm h)]

theorem isPrefix_trans {α : Type} {l1 l2 l3 : List α} (h1 : l1 <+: l2) (h2 : l2 <+: l3) :
    l1 <+: l3 := by
  obtain ⟨t1, rfl⟩ := h1
  obtain ⟨t2, rfl⟩ := h2
  exact ⟨t1 ++ t2, by simp⟩

theorem lookupChar_mapOf (seen : List Char) (c : Char) :
    lookupChar (mapOf seen) c
      = if c ∈ seen then some (Char.ofNat (97 + idxOf c seen)) else none := by
  rw [mapOf, lookupChar_mapOfAux]

theorem mapOf_snoc (seen : List Char) (c : Char) :
    mapOf seen ++ [(c, Char.ofNat (97 + seen.length))] = mapOf (seen ++ [c]) := by
  show _ = mapOfAux 0 (seen ++ [c])
  rw [mapOfAux_append]
  norm_num
  rfl

theorem remapChars_mapOf (cs : List Char) :
    ∀ seen full : List Char, firstOccsFrom seen cs <+: full →
      remapChars (mapOf seen) cs
        = (mapOf (firstOccsFrom seen cs), cs.map (rankChar full)) := by
  induction cs with
  | nil =>
    intro seen full h
    simp [remapChars, firstOccsFrom]
  | cons c cs ih =>
    intro seen full h
    by_cases hc : c ∈ seen
    · have hfo : firstOccsFrom seen (c :: cs) = firstOccsFrom seen cs := by
        simp [firstOccsFrom, hc]
      rw [hfo] at h ⊢
      have hmd : remapChar (mapOf seen) c = (mapOf seen, Char.ofNat (97 + idxOf c seen)) := by
        unfold remapChar
        rw [lookupChar_mapOf, if_pos hc]
      have hrank : Char.ofNat (97 + idxOf c seen) = rankChar full c := by
        unfold rankChar
        rw [idxOf_of_isPrefix hc (isPrefix_trans (firstOccsFrom_isPrefix seen cs) h)]
      simp only [remapChars, hmd, ih seen full h, List.map_cons, hrank]
    · have hfo : firstOccsFrom seen (c :: cs) = firstOccsFrom (seen ++ [c]) cs := by
        simp [firstOccsFrom, hc]
      rw [hfo] at h ⊢
      have hmd : remapChar (mapOf seen) c
          = (mapOf (seen ++ [c]), Char.ofNat (97 + seen.length)) := by
        unfold remapChar
        rw [lookupChar_mapOf, if_neg hc]
        have hl : (mapOf seen).length = seen.length := length_mapOfAux 0 seen
        simp only []
        rw [hl, mapOf_snoc]
      have hrank : Char.ofNat (97 + seen.length) = rankChar full c := by
        unfold rankChar
        have hmem : c ∈ seen ++ [c] := by simp
        have hpre : seen ++ [c] <+: full :=
          isPrefix_trans (firstOccsFrom_isPrefix (seen ++ [c]) cs) h
        rw [idxOf_of_isPrefix hmem hpre, idxOf_append_self hc]
      simp only [remapChars, hmd, ih (seen ++ [c]) full h, List.map_cons, hrank]

theorem remapRaw_mapOf (raw : RawSubscript) (seen full : List Char)
    (h : firstOccsFrom seen raw.chars <+: full) :
    remapRaw (mapOf seen) raw
      = (mapOf (firstOccsFrom seen raw.chars), mapRawChars (rankChar full) raw) := by
  cases raw with
  | Indices is' =>
    simp only [remapRaw, mapRawChars, RawSubscript.chars] at h ⊢
    rw [remapChars_mapOf is' seen full h]
  | Ellipsis start end' =>
    simp only [remapRaw, mapRawChars, RawSubscript.chars] at h ⊢
    rw [firstOccsFrom_append] at h
    have h1 : firstOccsFrom seen start <+: full :=
      isPrefix_trans (firstOccsFrom_isPrefix _ end') h
    rw [remapChars_mapOf start seen full h1]
    simp only []
    rw [remapChars_mapOf end' (firstOccsFrom seen start) full h]
    rw [firstOccsFrom_append]

theorem remapInputs_mapOf (l : List Subscript) :
    ∀ seen full : List Char,
      firstOccsFrom seen (concatMap (fun i => i.raw.chars) l) <+: full →
      remapInputs (mapOf seen) l
        = (mapOf (firstOccsFrom seen (concatMap (fun i => i.raw.chars) l)),
            l.map (fun i => ⟨mapRawChars (rankChar full) i.raw, i.position⟩)) := by
  induction l with
  | nil =>
    intro seen full h
    simp [remapInputs, concatMap, firstOccsFrom]
  | cons i is' ih =>
    intro seen full h
    simp only [concatMap, firstOccsFrom_append] at h ⊢
    have h1 : firstOccsFrom seen i.raw.chars <+: full :=
      isPrefix_trans (firstOccsFrom_isPrefix _ _) h
    simp only [remapInputs]
    rw [remapRaw_mapOf i.raw seen full h1]
    simp only []
    rw [ih (firstOccsFrom seen i.raw.chars) full h]
    rfl

theorem remap_indices_eq_mapSubsChars (s : Subscripts) :
    s.remap_indices = mapSubsChars (rankChar (firstOccs s.allChars)) s := by
  unfold Subscripts.remap_indices mapSubsChars
  have hfull : firstOccs s.allChars
      = firstOccsFrom (firstOccsFrom [] (concatMap (fun i => i.raw.chars) s.inputs))
          s.output.raw.chars := by
    unfold firstOccs Subscripts.allChars
    rw [firstOccsFrom_append]
  have h1 : firstOccsFrom [] (concatMap (fun i => i.raw.chars) s.inputs)
      <+: firstOccs s.allChars := by
    rw [hfull]
    exact firstOccsFrom_isPrefix _ _
  have hmap0 : (mapOf [] : List (Char × Char)) = [] := rfl
  rw [← hmap0, remapInputs_mapOf s.inputs [] (firstOccs s.allChars) h1]
  simp only []
  rw [remapRaw_mapOf s.output.raw _ (firstOccs s.allChars) (by rw [← hfull])]

theorem chars_mapRawChars (f : Char → Char) (r : RawSubscript) :
    (mapRawChars f r).chars = r.chars.map f := by
  cases r <;> simp [mapRawChars, RawSubscript.chars]

theorem allChars_mapSubsChars (f : Char → Char) (s : Subscripts) :
    (mapSubsChars f s).allChars = s.allChars.map f := by
  unfold mapSubsChars Subscripts.allChars
  simp only [chars_mapRawChars, List.map_append]
  congr 1
  induction s.inputs with
  | nil => rfl
  | cons i is' ih =>
    simp [concatMap, chars_mapRawChars, ih]

theorem mapRawChars_comp (f g : Char → Char) (r : RawSubscript) :
    mapRawChars g (mapRawChars f r) = mapRawChars (fun c => g (f c)) r := by
  cases r <;> simp [mapRawChars]

theorem mapSubsChars_comp (f g : Char → Char) (s : Subscripts) :
    mapSubsChars g (mapSubsChars f s) = mapSubsChars (fun c => g (f c)) s := by
  unfold mapSubsChars
  simp [mapRawChars_comp]

theorem firstOccsFrom_map (f : Char → Char) (l : List Char) :
    ∀ seen : List Char,
      (∀ a, (a ∈ seen ∨ a ∈ l) → ∀ b, (b ∈ seen ∨ b ∈ l) → f a = f b → a = b) →
      firstOccsFrom (seen.map f) (l.map f) = (firstOccsFrom seen l).map f := by
  induction l with
  | nil => intro seen _; rfl
  | cons c cs ih =>
    intro seen hinj
    simp only [List.map_cons, firstOccsFrom]
    by_cases hc : c ∈ seen
    · rw [if_pos (List.mem_map_of_mem f hc), if_pos hc]
      exact ih seen (fun a ha b hb => hinj a
        (by rcases ha with h | h; exact Or.inl h; exact Or.inr (by simp [h])) b
        (by rcases hb with h | h; exact Or.inl h; exact Or.inr (by simp [h])))
    · rw [if_neg (by
        intro hmem
        obtain ⟨x, hx, hfx⟩ := List.mem_map.mp hmem
        have := hinj x (Or.inl hx) c (Or.inr (by simp)) hfx
        rw [this] at hx
        exact hc hx), if_neg hc]
      rw [show (seen.map f) ++ [f c] = (seen ++ [c]).map f by simp]
      exact ih (seen ++ [c]) (fun a ha b hb => hinj a
        (by
          rcases ha with h | h
          · rcases List.mem_append.mp h with h2 | h2
            · exact Or.inl h2
            · simp at h2
              exact Or.inr (by simp [h2])
          · exact Or.inr (by simp [h])) b
        (by
          rcases hb with h | h
          · rcases List.mem_append.mp h with h2 | h2
            · exact Or.inl h2
            · simp at h2
              exact Or.inr (by simp [h2])
          · exact Or.inr (by simp [h])))

theorem map_idxOf_self (L : List Char) (h : L.Nodup) :
    ∀ g : Nat → Char, L.map (fun c => g (idxOf c L)) = (List.range L.length).map g := by
  induction L with
  | nil => intro g; rfl
  | cons x xs ih =>
    intro g
    obtain ⟨hx, hxs⟩ := List.nodup_cons.mp h
    simp only [List.map_cons, idxOf, if_pos rfl, List.length_cons]
    rw [List.range_succ_eq_map, List.map_cons]
    congr 1
    have hcongr : ∀ c ∈ xs,
        g (if x = c then 0 else idxOf c xs + 1) = g (idxOf c xs + 1) := by
      intro c hc
      have hne : ¬ x = c := fun he => hx (he ▸ hc)
      rw [if_neg hne]
    rw [List.map_congr_left hcongr, List.map_map]
    have := ih hxs (fun i => g (i + 1))
    simpa [Function.comp] using this

theorem char_ofNat_inj {a b : Nat} (ha : a < 55296) (hb : b < 55296)
    (h : Char.ofNat a = Char.ofNat b) : a = b := by
  have h1 : (Char.ofNat a).toNat = a := by
    have hv : a.isValidChar := Or.inl ha
    unfold Char.ofNat
    rw [dif_pos hv]
    rfl
  have h2 : (Char.ofNat b).toNat = b := by
    have hv : b.isValidChar := Or.inl hb
    unfold Char.ofNat
    rw [dif_pos hv]
    rfl
  rw [h] at h1
  omega

theorem argInputs'_map (σ : Char → Char) (k : Nat) (l : List RawSubscript) :
    argInputs' k (l.map (mapRawChars σ))
      = (argInputs' k l).map (fun i => ⟨mapRawChars σ i.raw, i.position⟩) := by
  induction l generalizing k with
  | nil => rfl
  | cons r rs ih => simp [argInputs', ih]

theorem from_raw_pre_relabel (σ : Char → Char) (names : Namespace) (raw : RawSubscripts)
    (o : RawSubscript) (h : raw.output = some o) :
    from_raw_pre names (relabelRaw σ raw)
      = (mapSubsChars σ (from_raw_pre names raw).1, (from_raw_pre names raw).2) := by
  rcases raw with ⟨inputs, output⟩
  simp only at h
  subst h
  unfold from_raw_pre relabelRaw
  simp only [Option.map_some']
  simp [argInputs, argInputs'_map, mapSubsChars]

theorem remap_indices_relabel (σ : Char → Char) (hσ : Function.Injective σ) (t : Subscripts) :
    (mapSubsChars σ t).remap_indices = t.remap_indices := by
  rw [remap_indices_eq_mapSubsChars, remap_indices_eq_mapSubsChars t]
  rw [allChars_mapSubsChars]
  have hfo : firstOccs (t.allChars.map σ) = (firstOccs t.allChars).map σ := by
    unfold firstOccs
    have := firstOccsFrom_map σ t.allChars [] (fun a _ b _ h => hσ h)
    simpa using this
  rw [hfo, mapSubsChars_comp]
  congr 1
  funext c
  unfold rankChar
  rw [idxOf_map hσ]

/-- C5 (amended to explicit-mode subscripts): raw subscripts with an explicit
output that differ only by an injective relabeling of their index characters
construct equal Subscripts values; and any constructed Subscripts (with fewer
than 0xD800 - 97 distinct indices, in particular always for the lowercase
indices the parser admits) has as its distinct index characters exactly
`a, b, c, ...` in order of first appearance scanning inputs then output. -/
theorem subscripts_canonical :
    (∀ (σ : Char → Char) (raw : RawSubscripts) (o : RawSubscript),
        Function.Injective σ → raw.output = some o →
        (Subscripts.from_raw Namespace.init raw).1
          = (Subscripts.from_raw Namespace.init (relabelRaw σ raw)).1) ∧
      (∀ (names : Namespace) (raw : RawSubscripts),
        97 + (firstOccs (from_raw_pre names raw).1.allChars).length ≤ 55296 →
        firstOccs ((Subscripts.from_raw names raw).1.allChars)
          = (List.range (firstOccs (from_raw_pre names raw).1.allChars).length).map
              (fun k => Char.ofNat (97 + k))) := by
  constructor
  · intro σ raw o hσ hout
    show (from_raw_pre Namespace.init raw).1.remap_indices
      = (from_raw_pre Namespace.init (relabelRaw σ raw)).1.remap_indices
    rw [from_raw_pre_relabel σ Namespace.init raw o hout]
    exact (remap_indices_relabel σ hσ _).symm
  · intro names raw hbound
    show firstOccs ((from_raw_pre names raw).1.remap_indices.allChars) = _
    rw [remap_indices_eq_mapSubsChars, allChars_mapSubsChars]
    have hinj : ∀ a, (a ∈ ([] : List Char) ∨ a ∈ (from_raw_pre names raw).1.allChars) →
        ∀ b, (b ∈ ([] : List Char) ∨ b ∈ (from_raw_pre names raw).1.allChars) →
        rankChar (firstOccs (from_raw_pre names raw).1.allChars) a
          = rankChar (firstOccs (from_raw_pre names raw).1.allChars) b → a = b := by
      intro a ha b hb hab
      have ha2 : a ∈ firstOccs (from_raw_pre names raw).1.allChars := by
        rcases ha with h | h
        · simp at h
        · exact (mem_firstOccsFrom [] _).mpr (Or.inr h)
      have hb2 : b ∈ firstOccs (from_raw_pre names raw).1.allChars := by
        rcases hb with h | h
        · simp at h
        · exact (mem_firstOccsFrom [] _).mpr (Or.inr h)
      have hla := idxOf_lt_length ha2
      have hlb := idxOf_lt_length hb2
      unfold rankChar at hab
      have := char_ofNat_inj (by omega) (by omega) hab
      exact idxOf_inj ha2 hb2 (by omega)
    have hfo := firstOccsFrom_map
      (rankChar (firstOccs (from_raw_pre names raw).1.allChars))
      (from_raw_pre names raw).1.allChars [] hinj
    simp only [List.map_nil] at hfo
    show firstOccsFrom [] _ = _
    rw [hfo]
    exact map_idxOf_self _ (nodup_firstOccsFrom List.nodup_nil _) (fun i => Char.ofNat (97 + i))

/-- Counterexample to C5 as stated: `ab` and `ba` (implicit mode) differ only
by the injective relabeling swapping `a` and `b`, yet they construct different
Subscripts values (`ab->ab` versus `ab->ba`, the transpose), because the
implicit-mode output is sorted alphabetically before remapping. -/
theorem relabel_not_invariant_implicit :
    Function.Injective sigmaSwap ∧
      relabelRaw sigmaSwap rawAB = rawBA ∧
      (Subscripts.from_raw Namespace.init rawAB).1
        ≠ (Subscripts.from_raw Namespace.init rawBA).1 := by
  refine ⟨?_, by decide, by decide⟩
  have hinv : ∀ c, sigmaSwap (sigmaSwap c) = c := by
    intro c
    by_cases h1 : c = 'a'
    · subst h1; decide
    · by_cases h2 : c = 'b'
      · subst h2; decide
      · simp [sigmaSwap, h1, h2]
  exact Function.LeftInverse.injective hinv

/-- Witness for the amended C5 at `ij,jk->ik` (explicit output), with the
identity relabeling. -/
theorem subscripts_canonical_witness :
    Function.Injective (id : Char → Char) ∧ rawIJK.output = some (.Indices ['i', 'k']) ∧
      (Subscripts.from_raw Namespace.init rawIJK).1
        = (Subscripts.from_raw Namespace.init (relabelRaw id rawIJK)).1 ∧
      97 + (firstOccs (from_raw_pre Namespace.init rawIJK).1.allChars).length ≤ 55296 ∧
      firstOccs ((Subscripts.from_raw Namespace.init rawIJK).1.allChars)
        = (List.range (firstOccs (from_raw_pre Namespace.init rawIJK).1.allChars).length).map
            (fun k => Char.ofNat (97 + k)) :=
  ⟨fun _ _ h => h, rfl,
    (subscripts_canonical).1 id rawIJK (.Indices ['i', 'k']) (fun _ _ h => h) rfl,
    by decide,
    (subscripts_canonical).2 Namespace.init rawIJK (by decide)⟩

theorem blocked_noIdx {g : List Char} (h : blocked g) : noIdxAhead g :=
  fun c hc => (h c hc).1

theorem blocked_noDot {g : List Char} (h : blocked g) : noDotAhead g :=
  fun c hc => (h c hc).2.2.2

theorem blocked_noComma {g : List Char} (h : blocked g) : noCommaAhead g :=
  fun c hc => (h c hc).2.1

theorem blocked_noDash {g : List Char} (h : blocked g) : noDashAhead g :=
  fun c hc => (h c hc).2.2.1

theorem idx_not_ws {c : Char} (h : isIdxChar c) : ¬ isWsChar c := by
  intro hw
  simp only [isIdxChar, decide_eq_true_eq] at h
  simp only [isWsChar, decide_eq_true_eq] at hw
  have h1 : 97 ≤ c.toNat := h.1
  rcases hw with rfl | rfl | rfl | rfl <;> simp_all

theorem skipWs_append_ws {ws : Ws} (h : wsOk ws) (t : List Char) :
    skipWs (ws ++ t) = skipWs t := by
  induction ws with
  | nil => rfl
  | cons c cs ih =>
    simp only [List.cons_append, skipWs]
    rw [if_pos (h c (by simp))]
    exact ih (fun x hx => h x (by simp [hx]))

theorem skipWs_cons_not_ws {c : Char} (h : ¬ isWsChar c) (t : List Char) :
    skipWs (c :: t) = c :: t := by
  simp [skipWs, h]

theorem skipWs_decomp (l : List Char) : ∃ w, wsOk w ∧ l = w ++ skipWs l := by
  induction l with
  | nil => exact ⟨[], by simp [wsOk], rfl⟩
  | cons c cs ih =>
    by_cases hc : isWsChar c
    · obtain ⟨w, hw, heq⟩ := ih
      refine ⟨c :: w, fun x hx => ?_, ?_⟩
      · rcases List.mem_cons.mp hx with rfl | hx
        · exact hc
        · exact hw x hx
      · simp only [skipWs, if_pos hc, List.cons_append]
        rw [← heq]
    · exact ⟨[], by simp [wsOk], by simp [skipWs_cons_not_ws hc]⟩

theorem skipWs_skipWs (l : List Char) : skipWs (skipWs l) = skipWs l := by
  induction l with
  | nil => rfl
  | cons c cs ih =>
    by_cases hc : isWsChar c
    · simp [skipWs, hc, ih]
    · simp [skipWs, hc]

theorem pIndices_stop {t : List Char} (h : noIdxAhead t) : pIndices t = ([], t) := by
  induction t with
  | nil => rfl
  | cons c cs ih =>
    by_cases hc : isWsChar c
    · have h2 : noIdxAhead cs := by
        unfold noIdxAhead at h ⊢
        rwa [show skipWs (c :: cs) = skipWs cs from by simp [skipWs, hc]] at h
      simp only [pIndices, if_pos hc, ih h2]
      simp
    · have hidx : ¬ isIdxChar c := by
        have := h c
        rw [skipWs_cons_not_ws hc] at this
        exact this (by simp)
      simp only [pIndices, if_neg hc, if_neg hidx]

theorem pIndices_empty_rest {t : List Char} (h : (pIndices t).1 = []) : pIndices t = ([], t) := by
  induction t with
  | nil => rfl
  | cons c cs ih =>
    by_cases hc : isWsChar c
    · simp only [pIndices, if_pos hc] at h ⊢
      split at h
      · next hr => simp [hr]
      · next hr => exact absurd h hr
    · by_cases hidx : isIdxChar c
      · simp only [pIndices, if_neg hc, if_pos hidx] at h
        simp at h
      · simp only [pIndices, if_neg hc, if_neg hidx]

theorem pIndices_ws_pre {ws : Ws} (h : wsOk ws) (t : List Char) :
    pIndices (ws ++ t)
      = if (pIndices t).1 = [] then ([], ws ++ t) else pIndices t := by
  induction ws with
  | nil =>
    simp only [List.nil_append]
    split
    · next he => rw [pIndices_empty_rest he]
    · rfl
  | cons c cs ih =>
    have hc : isWsChar c := h c (by simp)
    have h2 : wsOk cs := fun x hx => h x (by simp [hx])
    simp only [List.cons_append, List.append_eq, pIndices, if_pos hc]
    rw [ih h2]
    by_cases he : (pIndices t).1 = [] <;> simp [he]

theorem pIndices_skipWs (x : List Char) :
    pIndices (skipWs x)
      = if (pIndices x).1 = [] then ([], skipWs x) else pIndices x := by
  obtain ⟨w, hw, heq⟩ := skipWs_decomp x
  by_cases he : (pIndices x).1 = []
  · rw [if_pos he]
    by_cases he2 : (pIndices (skipWs x)).1 = []
    · exact pIndices_empty_rest he2
    · exfalso
      have h1 : pIndices x = pIndices (skipWs x) := by
        conv_lhs => rw [heq]
        rw [pIndices_ws_pre hw, if_neg he2]
      rw [h1] at he
      exact he2 he
  · rw [if_neg he]
    have h1 : pIndices x
        = if (pIndices (skipWs x)).1 = [] then ([], x) else pIndices (skipWs x) := by
      conv_lhs => rw [heq]
      rw [pIndices_ws_pre hw, ← heq]
    by_cases he2 : (pIndices (skipWs x)).1 = []
    · rw [if_pos he2] at h1
      rw [h1] at he
      simp at he
    · rw [if_neg he2] at h1
      exact h1.symm

theorem pIndices_render {l : List (Ws × Char)} (hok : pairsOk l) {t : List Char}
    (ht : noIdxAhead t) : pIndices (renderPairs l ++ t) = (l.map Prod.snd, t) := by
  induction l with
  | nil =>
    simp only [renderPairs, concatMap, List.nil_append, List.map_nil]
    exact pIndices_stop ht
  | cons p ls ih =>
    obtain ⟨hws, hidx⟩ := hok p (by simp)
    have hok2 : pairsOk ls := fun q hq => hok q (by simp [hq])
    simp only [renderPairs, concatMap] at ih ⊢
    rw [show (p.1 ++ [p.2]) ++ concatMap (fun p => p.1 ++ [p.2]) ls ++ t
        = p.1 ++ (p.2 :: (concatMap (fun p => p.1 ++ [p.2]) ls ++ t)) by simp]
    rw [pIndices_ws_pre hws]
    have hstep : pIndices (p.2 :: (concatMap (fun q => q.1 ++ [q.2]) ls ++ t))
        = (p.2 :: ls.map Prod.snd, t) := by
      simp only [pIndices, if_neg (idx_not_ws hidx), if_pos hidx]
      rw [ih hok2]
    rw [hstep]
    simp

theorem pIndices_render_congr {l : List (Ws × Char)} (hok : pairsOk l) {t x : List Char}
    (ht : noIdxAhead t) (hx : skipWs x = skipWs (renderPairs l ++ t)) :
    ∃ t', pIndices x = (l.map Prod.snd, t') ∧ skipWs t' = skipWs t := by
  obtain ⟨w, hw, heq⟩ := skipWs_decomp x
  have h1 : pIndices x
      = if (pIndices (skipWs x)).1 = [] then ([], x) else pIndices (skipWs x) := by
    conv_lhs => rw [heq]
    rw [pIndices_ws_pre hw, ← heq]
  have h2 : pIndices (skipWs x)
      = if (pIndices (renderPairs l ++ t)).1 = [] then ([], skipWs x)
        else pIndices (renderPairs l ++ t) := by
    rw [hx, pIndices_skipWs]
  rw [pIndices_render hok ht] at h2
  rcases l with _ | ⟨p, ls⟩
  · have h2' : pIndices (skipWs x) = ([], skipWs x) := by
      rw [h2]
      simp
    rw [h2'] at h1
    have h1' : pIndices x = ([], x) := by
      rw [h1]
      simp
    refine ⟨x, by simpa using h1', ?_⟩
    rw [hx]
    simp [renderPairs, concatMap]
  · have hne : ((p :: ls).map Prod.snd) ≠ [] := by simp
    rw [if_neg hne] at h2
    rw [h2] at h1
    rw [if_neg hne] at h1
    exact ⟨t, h1, rfl⟩

theorem pSubscript_render (w : WsRawSubscript) (hok : w.Ok) {t x : List Char}
    (htIdx : noIdxAhead t) (htDot : noDotAhead t)
    (hx : skipWs x = skipWs (w.render ++ t)) :
    ∃ t', pSubscript x = (w.strip, t') ∧ skipWs t' = skipWs t := by
  cases w with
  | Indices l =>
    have hok' : pairsOk l := hok
    obtain ⟨t', hpi, hsk⟩ := pIndices_render_congr hok' htIdx
      (by simpa [WsRawSubscript.render] using hx)
    refine ⟨t', ?_, hsk⟩
    simp only [pSubscript, hpi]
    rw [hsk]
    split
    next s3 heq => exact absurd rfl (htDot '.' (by rw [heq]; simp))
    next => rfl
  | Ellipsis st pre post en =>
    obtain ⟨hst, hpre, hpost, hen⟩ := hok
    have hxr : skipWs x
        = skipWs (renderPairs st ++ (pre ++ '.' :: '.' :: '.' :: (post ++ renderPairs en ++ t))) := by
      rw [hx]
      congr 1
      simp [WsRawSubscript.render]
    have ht1 : noIdxAhead (pre ++ '.' :: '.' :: '.' :: (post ++ renderPairs en ++ t)) := by
      intro c hc
      rw [skipWs_append_ws hpre, skipWs_cons_not_ws (by decide)] at hc
      simp at hc
      rw [hc]
      decide
    obtain ⟨t1, hpi, hsk1⟩ := pIndices_render_congr hst ht1 hxr
    have hsk1' : skipWs t1 = '.' :: '.' :: '.' :: (post ++ renderPairs en ++ t) := by
      rw [hsk1, skipWs_append_ws hpre, skipWs_cons_not_ws (by decide)]
    have hsk3 : skipWs (skipWs (post ++ renderPairs en ++ t)) = skipWs (renderPairs en ++ t) := by
      rw [skipWs_skipWs, List.append_assoc, skipWs_append_ws hpost]
    obtain ⟨t2, hpi2, hsk2⟩ := pIndices_render_congr hen htIdx hsk3
    refine ⟨t2, ?_, hsk2⟩
    simp only [pSubscript, hpi]
    rw [hsk1']
    simp only [hpi2]
    rfl

theorem skipWs_renderRest_cons {q : Ws × WsRawSubscript} (hq : wsOk q.1)
    (rs : List (Ws × WsRawSubscript)) (t : List Char) :
    skipWs (renderRest (q :: rs) ++ t) = ',' :: (q.2.render ++ (renderRest rs ++ t)) := by
  simp only [renderRest, concatMap]
  rw [show (q.1 ++ [','] ++ q.2.render) ++ concatMap (fun p => p.1 ++ [','] ++ p.2.render) rs ++ t
      = q.1 ++ (',' :: (q.2.render ++ (concatMap (fun p => p.1 ++ [','] ++ p.2.render) rs ++ t)))
      by simp]
  rw [skipWs_append_ws hq, skipWs_cons_not_ws (by decide)]

theorem noIdxAhead_renderRest (rs : List (Ws × WsRawSubscript))
    (hok : ∀ p ∈ rs, wsOk p.1 ∧ p.2.Ok) {t : List Char} (ht : noIdxAhead t) :
    noIdxAhead (renderRest rs ++ t) := by
  cases rs with
  | nil => simpa [renderRest, concatMap] using ht
  | cons q rs' =>
    intro c hc
    rw [skipWs_renderRest_cons (hok q (by simp)).1] at hc
    simp at hc
    rw [hc]
    decide

theorem noDotAhead_renderRest (rs : List (Ws × WsRawSubscript))
    (hok : ∀ p ∈ rs, wsOk p.1 ∧ p.2.Ok) {t : List Char} (ht : noDotAhead t) :
    noDotAhead (renderRest rs ++ t) := by
  cases rs with
  | nil => simpa [renderRest, concatMap] using ht
  | cons q rs' =>
    intro c hc
    rw [skipWs_renderRest_cons (hok q (by simp)).1] at hc
    simp at hc
    rw [hc]
    decide

theorem pSubscriptsRest_render (rs : List (Ws × WsRawSubscript)) :
    ∀ (acc : List RawSubscript) (t s : List Char),
      (∀ p ∈ rs, wsOk p.1 ∧ p.2.Ok) →
      noIdxAhead t → noDotAhead t → noCommaAhead t →
      skipWs s = skipWs (renderRest rs ++ t) →
      ∃ t', pSubscriptsRest acc s = (acc ++ rs.map (fun p => p.2.strip), t') ∧
        skipWs t' = skipWs t := by
  induction rs with
  | nil =>
    intro acc t s hok hIdx hDot hComma hs
    simp only [renderRest, concatMap, List.nil_append] at hs
    refine ⟨s, ?_, hs⟩
    rw [pSubscriptsRest.eq_def]
    split
    next s2 heq =>
      rw [hs] at heq
      exact absurd rfl (hComma ',' (by rw [heq]; simp))
    next => simp
  | cons p rs' ih =>
    intro acc t s hok hIdx hDot hComma hs
    obtain ⟨hws, hsubOk⟩ := hok p (by simp)
    have hok' : ∀ q ∈ rs', wsOk q.1 ∧ q.2.Ok := fun q hq => hok q (by simp [hq])
    have hs' : skipWs s = ',' :: (p.2.render ++ (renderRest rs' ++ t)) := by
      rw [hs, skipWs_renderRest_cons hws]
    obtain ⟨t3, hps, hsk3⟩ := pSubscript_render p.2 hsubOk
      (noIdxAhead_renderRest rs' hok' hIdx) (noDotAhead_renderRest rs' hok' hDot)
      (x := p.2.render ++ (renderRest rs' ++ t)) rfl
    obtain ⟨t', hrec, hsk'⟩ := ih (acc ++ [p.2.strip]) t t3 hok' hIdx hDot hComma
      (by rw [hsk3])
    refine ⟨t', ?_, hsk'⟩
    rw [pSubscriptsRest.eq_def]
    split
    next s2 heq =>
      have h0 := hs'.symm.trans heq
      simp only [List.cons.injEq, true_and] at h0
      simp only [← h0, hps]
      simpa [List.append_assoc] using hrec
    next hne =>
      exfalso
      exact hne _ hs'

theorem skipWs_renderOut_some {o : Ws × Ws × WsRawSubscript} (h1 : wsOk o.1) (g : List Char) :
    skipWs (renderOut (some o) ++ g) = '-' :: '>' :: (o.2.1 ++ (o.2.2.render ++ g)) := by
  simp only [renderOut]
  rw [show (o.1 ++ ['-', '>'] ++ o.2.1 ++ o.2.2.render) ++ g
      = o.1 ++ ('-' :: '>' :: (o.2.1 ++ (o.2.2.render ++ g))) by simp]
  rw [skipWs_append_ws h1, skipWs_cons_not_ws (by decide)]

theorem noIdxAhead_renderOut {o : Option (Ws × Ws × WsRawSubscript)} (ho : outOk o)
    {g : List Char} (hg : blocked g) : noIdxAhead (renderOut o ++ g) := by
  cases o with
  | none => simpa [renderOut] using blocked_noIdx hg
  | some o =>
    intro c hc
    rw [skipWs_renderOut_some ho.1] at hc
    simp at hc
    rw [hc]
    decide

theorem noDotAhead_renderOut {o : Option (Ws × Ws × WsRawSubscript)} (ho : outOk o)
    {g : List Char} (hg : blocked g) : noDotAhead (renderOut o ++ g) := by
  cases o with
  | none => simpa [renderOut] using blocked_noDot hg
  | some o =>
    intro c hc
    rw [skipWs_renderOut_some ho.1] at hc
    simp at hc
    rw [hc]
    decide

theorem noCommaAhead_renderOut {o : Option (Ws × Ws × WsRawSubscript)} (ho : outOk o)
    {g : List Char} (hg : blocked g) : noCommaAhead (renderOut o ++ g) := by
  cases o with
  | none => simpa [renderOut] using blocked_noComma hg
  | some o =>
    intro c hc
    rw [skipWs_renderOut_some ho.1] at hc
    simp at hc
    rw [hc]
    decide

theorem pSubscripts_render (w : WsRawSubscripts) (g : List Char) (hok : w.Ok)
    (hg : blocked g) : (pSubscripts (w.render ++ g)).1 = w.strip := by
  obtain ⟨hlead, hfirstOk, hrestOk, houtOk⟩ := hok
  have houtIdx : noIdxAhead (renderOut w.out ++ g) := noIdxAhead_renderOut houtOk hg
  have houtDot : noDotAhead (renderOut w.out ++ g) := noDotAhead_renderOut houtOk hg
  have houtComma : noCommaAhead (renderOut w.out ++ g) := noCommaAhead_renderOut houtOk hg
  have ht0Idx : noIdxAhead (renderRest w.rest ++ (renderOut w.out ++ g)) :=
    noIdxAhead_renderRest w.rest hrestOk houtIdx
  have ht0Dot : noDotAhead (renderRest w.rest ++ (renderOut w.out ++ g)) :=
    noDotAhead_renderRest w.rest hrestOk houtDot
  have hs0 : skipWs (skipWs (w.render ++ g))
      = skipWs (w.first.render ++ (renderRest w.rest ++ (renderOut w.out ++ g))) := by
    rw [skipWs_skipWs]
    unfold WsRawSubscripts.render
    rw [show (w.lead ++ w.first.render ++ renderRest w.rest ++ renderOut w.out) ++ g
        = w.lead ++ (w.first.render ++ (renderRest w.rest ++ (renderOut w.out ++ g))) by simp]
    rw [skipWs_append_ws hlead]
  obtain ⟨t1, hp1, hsk1⟩ := pSubscript_render w.first hfirstOk ht0Idx ht0Dot hs0
  obtain ⟨t2, hp2, hsk2⟩ := pSubscriptsRest_render w.rest [w.first.strip]
    (renderOut w.out ++ g) t1 hrestOk houtIdx houtDot houtComma (by rw [hsk1])
  simp only [pSubscripts, hp1, hp2]
  rcases ho : w.out with _ | o
  · rw [ho] at hsk2
    simp only [renderOut, List.nil_append] at hsk2
    rw [hsk2]
    split
    next s4 heq =>
      exact absurd rfl (blocked_noDash hg '-' (by rw [heq]; simp))
    next =>
      simp [WsRawSubscripts.strip, ho]
  · rw [ho] at hsk2 houtOk
    obtain ⟨ho1, ho2, ho3⟩ := houtOk
    rw [hsk2, skipWs_renderOut_some ho1]
    obtain ⟨t3, hp3, _⟩ := pSubscript_render o.2.2 ho3 (blocked_noIdx hg)
      (blocked_noDot hg)
      (x := skipWs (o.2.1 ++ (o.2.2.render ++ g)))
      (by rw [skipWs_skipWs, skipWs_append_ws ho2])
    simp only [hp3]
    simp [WsRawSubscripts.strip, ho]

/-- C9: every well-formed subscripts string parses successfully, and
inserting or removing whitespace between indices, around commas, or around
the arrow does not change the parsed value: every decorated rendering parses
to the strip of its decoration, which is independent of the decoration. -/
theorem parse_whitespace_invariant (w : WsRawSubscripts) (hok : w.Ok) :
    RawSubscripts.fromStr ⟨w.render⟩ = some w.strip ∧
      (pSubscripts w.render).1 = w.strip := by
  have h := pSubscripts_render w [] hok (by decide)
  rw [List.append_nil] at h
  refine ⟨?_, h⟩
  unfold RawSubscripts.fromStr
  rw [show (String.mk w.render).data = w.render from rfl, h]

/-- Witness for C9 at the decorated rendering `" i j ,jk -> ik"` of
`ij,jk->ik`. -/
theorem parse_whitespace_invariant_witness :
    wsExample.Ok ∧
      (RawSubscripts.fromStr ⟨wsExample.render⟩ = some wsExample.strip ∧
        (pSubscripts wsExample.render).1 = wsExample.strip) :=
  ⟨by decide, parse_whitespace_invariant wsExample (by decide)⟩

/-- Counterexample to C6 as stated: `"ij,jk->ik;x"` has trailing garbage
after a well-formed prefix, yet `RawSubscripts::from_str` succeeds with the
parsed prefix instead of failing with `InvalidSubscripts`. -/
theorem fromStr_trailing_garbage_succeeds :
    RawSubscripts.fromStr "ij,jk->ik;x" = some rawIJK := by
  show some (pSubscripts
    ('i' :: 'j' :: ',' :: 'j' :: 'k' :: '-' :: '>' :: 'i' :: 'k' :: ';' :: 'x' :: [])).1 = _
  simp [pSubscripts, pSubscriptsRest, pSubscript, pIndices, skipWs, rawIJK, isWsChar, isIdxChar]

/-- C6 (amended): `RawSubscripts::from_str` does not fail on trailing
garbage: whatever follows the well-formed prefix (as long as it cannot extend
the parse) is discarded, the prefix is parsed, and the `InvalidSubscripts`
error branch is not taken. -/
theorem fromStr_ignores_trailing_garbage (w : WsRawSubscripts) (g : List Char)
    (hok : w.Ok) (hg : blocked g) :
    RawSubscripts.fromStr ⟨w.render ++ g⟩ = some w.strip := by
  unfold RawSubscripts.fromStr
  rw [show (String.mk (w.render ++ g)).data = w.render ++ g from rfl]
  rw [pSubscripts_render w g hok hg]

/-- Witness for the amended C6: the decorated `ij,jk->ik` with garbage
`";x"` appended still parses to the same value. -/
theorem fromStr_ignores_trailing_garbage_witness :
    wsExample.Ok ∧ blocked [';', 'x'] ∧
      RawSubscripts.fromStr ⟨wsExample.render ++ [';', 'x']⟩ = some wsExample.strip :=
  ⟨by decide, by decide,
    fromStr_ignores_trailing_garbage wsExample [';', 'x'] (by decide) (by decide)⟩
